import Mathlib

/-!
Verification of the stoctopus Ultimate Tic-Tac-Toe engine.

Shallow embedding conventions:
machine integers (u128, u16, u8) are modelled as Nat, with bitwise complement
on a w-bit word written as xor with 2^w - 1; floating point win/visit counters
are modelled as exact rationals; the SIMD comparison against the 8 win masks
is modelled as a fold over the list of masks (the spec states vectorized
evaluation is an optimization, not a behavioral requirement); the random
number generator is modelled as an oracle stream of naturals, and loops whose
termination is data dependent take explicit fuel.  A Rust panic is modelled
as an Option-valued function returning none.
-/

namespace Stoctopus

/-- Player tag (game.rs enum Player). -/
inductive Player where
  | X : Player
  | O : Player
deriving DecidableEq, Repr

/-- Game state tag (game.rs enum GameState). -/
inductive GameState where
  | Won : Player → GameState
  | Draw : GameState
  | InProgress : GameState
deriving DecidableEq, Repr

/-- Toggle a player (game.rs Player::other). -/
def Player.other : Player → Player
  | Player.O => Player.X
  | Player.X => Player.O

/-- Board state (game.rs struct Board): x and o are 81-bit occupancy sets in a
u128, gx and go are 9-bit decided-sub-board sets in a u16. -/
structure Board where
  x : Nat
  o : Nat
  gx : Nat
  go : Nat
  next_player : Player
  last_move : Option Nat
deriving DecidableEq, Repr

/-- Default board (derive Default on Board: zero bit sets, X to move, no last
move). -/
def Board.initial : Board :=
  { x := 0, o := 0, gx := 0, go := 0, next_player := Player.X, last_move := none }

instance : Inhabited Board := ⟨Board.initial⟩

/-- The 8 three-in-a-row masks (game.rs WIN_MASKS): 3 rows, 3 columns, 2
diagonals over a 9-bit pattern. -/
def WIN_MASKS : List Nat :=
  [0b111000000, 0b000111000, 0b000000111,
   0b100100100, 0b010010010, 0b001001001,
   0b100010001, 0b001010100]

/-- Model of the vectorized mask test: splat(p) & WIN_MASKS simd_eq WIN_MASKS
any, i.e. some mask m satisfies p & m == m. -/
def anyWinMask (p : Nat) : Bool :=
  WIN_MASKS.any (fun m => p &&& m == m)

/-- Bitwise complement on a 128-bit word. -/
def not128 (n : Nat) : Nat := n ^^^ (2 ^ 128 - 1)

/-- Bitwise complement on a 16-bit word. -/
def not16 (n : Nat) : Nat := n ^^^ (2 ^ 16 - 1)

/-- Pack a move as (global << 4) | local (game.rs Board::move_from_gl). -/
def Board.move_from_gl (g l : Nat) : Nat := (g <<< 4) ||| l

/-- Decompose a flat cell index 0..81 and pack it (game.rs
Board::move_from_index). -/
def Board.move_from_index (index : Nat) : Nat :=
  Board.move_from_gl (index / 9) (index % 9)

/-- Evaluate one sub-board from its cell contents (game.rs
Board::check_board_state). -/
def Board.check_board_state (b : Board) (g : Nat) : GameState :=
  let xbits := (b.x >>> (g * 9)) &&& 0b111111111
  let obits := (b.o >>> (g * 9)) &&& 0b111111111
  if anyWinMask xbits then GameState.Won Player.X
  else if anyWinMask obits then GameState.Won Player.O
  else if (xbits ||| obits) == 0b111111111 then GameState.Draw
  else GameState.InProgress

/-- Recompute the gx/go status of sub-board g from its cell contents (game.rs
Board::update_board_state); the Rust method mutates the board in place and
returns the sub-board state, modelled here as returning the new board paired
with that state. -/
def Board.update_board_state (b : Board) (g : Nat) : Board × GameState :=
  let xbits := (b.x >>> (g * 9)) &&& 0b111111111
  let obits := (b.o >>> (g * 9)) &&& 0b111111111
  if anyWinMask xbits then
    ({ b with gx := b.gx ||| (1 <<< g) }, GameState.Won Player.X)
  else if anyWinMask obits then
    ({ b with go := b.go ||| (1 <<< g) }, GameState.Won Player.O)
  else if (xbits ||| obits) == 0b111111111 then
    ({ b with gx := b.gx ||| (1 <<< g), go := b.go ||| (1 <<< g) }, GameState.Draw)
  else (b, GameState.InProgress)

/-- Global game state from the decided-sub-board sets (game.rs
Board::check_game_state). -/
def Board.check_game_state (b : Board) : GameState :=
  let drawn_boards := b.gx &&& b.go
  if anyWinMask (b.gx &&& not16 drawn_boards) then GameState.Won Player.X
  else if anyWinMask (b.go &&& not16 drawn_boards) then GameState.Won Player.O
  else if (b.gx ||| b.go) == 0b111111111 then GameState.Draw
  else GameState.InProgress

/-- True iff the game is decided (game.rs Board::game_over). -/
def Board.game_over (b : Board) : Bool :=
  match b.check_game_state with
  | GameState.Won _ => true
  | GameState.Draw => true
  | GameState.InProgress => false

/-- Apply a move with no legality or turn validation (game.rs
Board::unchecked_play): set the mover's bit, recompute the affected
sub-board's status, record the move, flip the player. -/
def Board.unchecked_play (b : Board) (m : Nat) : Board :=
  let l := m &&& 0b1111
  let g := (m >>> 4) &&& 0b1111
  let b1 :=
    match b.next_player with
    | Player.X => { b with x := b.x ||| ((1 <<< (g * 9)) <<< l) }
    | Player.O => { b with o := b.o ||| ((1 <<< (g * 9)) <<< l) }
  let b2 := (b1.update_board_state g).1
  { b2 with last_move := some m, next_player := b.next_player.other }

/-- One step of the global_board_mask loop body (game.rs
Board::global_board_mask, loop over i in 0..9 testing bit 8 - i). -/
def gmaskStep (d mask i : Nat) : Nat :=
  if (d &&& (1 <<< (8 - i))) != 0 then (mask <<< 9) ||| 0b111111111
  else mask <<< 9

/-- Unrolled global_board_mask loop: gmaskIter d t runs the first t loop
iterations (i = 0 is the innermost application, i = t - 1 the outermost). -/
def gmaskIter (d : Nat) : Nat → Nat
  | 0 => 0
  | t + 1 => gmaskStep d (gmaskIter d t) t

/-- Full-cell mask of every decided sub-board (game.rs
Board::global_board_mask). -/
def Board.global_board_mask (b : Board) : Nat := gmaskIter (b.gx ||| b.go) 9

/-- Constant 81-bit all-cells mask used by get_moves. -/
def ALL_CELLS : Nat := 0x1ffffffffffffffffffff

/-- Legal-cell mask (game.rs Board::get_moves): with no prior move every cell;
otherwise if the targeted sub-board is decided by its contents, every empty
cell outside the decided sub-boards; otherwise the empty cells of the targeted
sub-board. -/
def Board.get_moves (b : Board) : Nat :=
  match b.last_move with
  | none => ALL_CELLS
  | some m =>
    let l := m &&& 0b1111
    match b.check_board_state l with
    | GameState.Won _ => not128 (b.x ||| b.o ||| b.global_board_mask) &&& ALL_CELLS
    | GameState.Draw => not128 (b.x ||| b.o ||| b.global_board_mask) &&& ALL_CELLS
    | GameState.InProgress =>
        not128 (b.x ||| b.o) &&& ALL_CELLS &&& (0b111111111 <<< (9 * l))

/-- Bit scan underlying the population count: add up the low fuel bits. -/
def count_ones_aux : Nat → Nat → Nat
  | 0, _ => 0
  | fuel + 1, n => n % 2 + count_ones_aux fuel (n / 2)

/-- Population count of a 128-bit word (u128 count_ones): every u128 value
is below 2^128, so scanning 128 bits is exact. -/
def count_ones (n : Nat) : Nat := count_ones_aux 128 n

/-- Scan loop of find_kth_high_bit_index (mcts.rs): from bit position i with
fuel remaining positions, return the k-th set bit of n. -/
def findKthAux (n : Nat) : Nat → Nat → Nat → Option Nat
  | _, _, 0 => none
  | k, i, fuel + 1 =>
    if (n &&& (1 <<< i)) != 0 then
      if k = 0 then some i else findKthAux n (k - 1) (i + 1) fuel
    else findKthAux n k (i + 1) fuel

/-- Index of the k-th set bit among positions 0..81 (mcts.rs
find_kth_high_bit_index). -/
def find_kth_high_bit_index (n k : Nat) : Option Nat := findKthAux n k 0 81

/-- Number of plies of one rollout: a random move is drawn uniformly among
the legal ones and applied until the game is over (mcts.rs
MCTSArena::simulate).  stream t is the t-th draw of the thread-local RNG,
reduced modulo the number of legal moves; fuel bounds the number of plies and
none models a panic (gen_range on an empty range, or a failed expect). -/
def simulateFuel (stream : Nat → Nat) : Nat → Nat → Board → Option GameState
  | _, 0, b => if b.game_over then some b.check_game_state else none
  | t, fuel + 1, b =>
    if b.game_over then some b.check_game_state
    else
      let moves := b.get_moves
      let num_moves := count_ones moves
      if num_moves = 0 then none
      else
        match find_kth_high_bit_index moves (stream t % num_moves) with
        | none => none
        | some i => simulateFuel stream (t + 1) fuel (b.unchecked_play (Board.move_from_index i))

/-- Number of empty cells of a board. -/
def emptyCount (b : Board) : Nat :=
  (List.range 81).countP (fun i => !(b.x ||| b.o).testBit i)

/-- Board well-formedness: gx/go are 9-bit sets, every sub-board not marked
decided still has an empty cell, a recorded last move targets a cell index
below 9, and a board with no last move is empty.  Every board reachable by
legal play satisfies this. -/
def Board.wf (b : Board) : Bool :=
  decide (b.gx < 512) && decide (b.go < 512) &&
  (List.range 9).all (fun j =>
    (b.gx ||| b.go).testBit j ||
    (List.range 9).any (fun c => !(b.x ||| b.o).testBit (9 * j + c))) &&
  (match b.last_move with
   | none => b.x == 0 && b.o == 0
   | some m => decide (m &&& 0b1111 < 9))

/-- Boards reachable from the initial position by repeatedly applying
unchecked_play to a set bit of get_moves. -/
inductive Reachable : Board → Prop where
  | init : Reachable Board.initial
  | play : ∀ {b : Board} {i : Nat}, Reachable b → (b.get_moves).testBit i = true →
      Reachable (b.unchecked_play (Board.move_from_index i))

/-- Draw reward used by backpropagation (mcts.rs: wins += 1e-8), modelled as
the exact rational. -/
def epsDraw : ℚ := 1 / 100000000

/-- Search tree node (mcts.rs struct MCTSNode); the f32 counters are modelled
as rationals and NodeId as a plain index. -/
structure MCTSNode where
  board : Board
  wins : ℚ
  visits : ℚ
  parent : Option Nat
  children : Option (List Nat)
deriving DecidableEq

instance : Inhabited MCTSNode :=
  ⟨{ board := Board.initial, wins := 0, visits := 0, parent := none, children := none }⟩

/-- Append-only node pool (mcts.rs struct MCTSArena). -/
structure MCTSArena where
  nodes : List MCTSNode
deriving DecidableEq

/-- Build a pool holding one root node for a board (mcts.rs MCTSArena::from). -/
def MCTSArena.fromBoard (b : Board) : MCTSArena :=
  ⟨[{ board := b, wins := 0, visits := 0, parent := none, children := none }]⟩

/-- Read a node by id (mcts.rs MCTSArena::resolve).  An out-of-range index is
a Rust panic that cannot occur under the arena invariants; it is modelled
totally with the default node. -/
def MCTSArena.resolve (a : MCTSArena) (id : Nat) : MCTSNode := a.nodes.getD id default

/-- Selection outcome (mcts.rs enum BestNode). -/
inductive BestNode where
  | Expand : Nat → BestNode
  | NodeId : Nat → BestNode
deriving DecidableEq, Repr

/-- Argmax loop shared by select and select_best_child: max_uct starts at 0,
max_uct_index at 0, and only a strictly greater score replaces the leader. -/
def argmaxLoop (v : Nat → ℚ) : List Nat → ℚ × Nat → ℚ × Nat
  | [], st => st
  | i :: is, st => argmaxLoop v is (if v i > st.1 then (v i, i) else st)

/-- Pick the direct child with the highest visit count (mcts.rs
MCTSArena::select_best_child); none models the expect panic on a node with no
children list.  With a present but empty children list the Rust loop body
never runs and the function returns its argument unchanged. -/
def MCTSArena.select_best_child (a : MCTSArena) (id : Nat) : Option Nat :=
  match (a.resolve id).children with
  | none => none
  | some children =>
    let st := argmaxLoop (fun i => (a.resolve (children.getD i 0)).visits)
      (List.range children.length) (0, 0)
    some (if children.length = 0 then id else children.getD st.2 0)

/-- UCT descent loop (mcts.rs MCTSArena::select): walk down by repeatedly
taking the argmax child until an unexpanded or terminal node is reached.  The
f32 UCT formula wins/visits + c * sqrt(ln(visits p) / visits c) is abstracted
as an arbitrary rational score function of the parent and child nodes; every
theorem below quantifies over it.  Fuel exhaustion (none) models
nontermination, which cannot occur on well-formed arenas. -/
def selectLoop (a : MCTSArena) (score : MCTSNode → MCTSNode → ℚ) :
    Nat → Nat → Option BestNode
  | 0, _ => none
  | fuel + 1, id =>
    let node := a.resolve id
    if node.board.game_over then some (BestNode.NodeId id)
    else
      match node.children with
      | none => some (BestNode.Expand id)
      | some children =>
        let st := argmaxLoop (fun i => score node (a.resolve (children.getD i 0)))
          (List.range children.length) (0, 0)
        selectLoop a score fuel (if children.length = 0 then id else children.getD st.2 0)

/-- Selection entry point with fuel covering any well-formed arena. -/
def MCTSArena.select (a : MCTSArena) (score : MCTSNode → MCTSNode → ℚ) (id : Nat) :
    Option BestNode :=
  selectLoop a score (a.nodes.length + 1) id

/-- Fresh child node created by expansion for the move with flat index i. -/
def mkChild (b : Board) (id : Nat) (i : Nat) : MCTSNode :=
  { board := b.unchecked_play (Board.move_from_index i), wins := 0,
    visits := 0, parent := some id, children := none }

/-- Loop body of expansion (mcts.rs MCTSArena::expand, for i in 0..81): if
bit i of the legal move mask is set, push a fresh child node and record its
index. -/
def expandStep (b : Board) (moves : Nat) (id : Nat)
    (st : List MCTSNode × List Nat) (i : Nat) : List MCTSNode × List Nat :=
  if ((moves >>> i) &&& 1) == 1 then
    (st.1 ++ [mkChild b id i], st.2 ++ [st.1.length])
  else st

/-- Expansion (mcts.rs MCTSArena::expand): for every set bit i of the legal
move mask, append a fresh child node playing that move, then attach the full
child list to the node. -/
def MCTSArena.expand (a : MCTSArena) (id : Nat) : MCTSArena :=
  let b := (a.resolve id).board
  let moves := b.get_moves
  let st := (List.range 81).foldl (expandStep b moves id) (a.nodes, ([] : List Nat))
  ⟨(st.1.set id { st.1.getD id default with children := some st.2 })⟩

/-- Backpropagation walk for one simulation result (mcts.rs
MCTSArena::backpropagate, inner loop): follow parent links from id, adding 1
to visits and dw to wins at every node on the chain.  Parent indices strictly
decrease on well-formed arenas, so fuel id + 1 always reaches the root. -/
def backpropWalk (dw : ℚ) : List MCTSNode → Nat → Nat → List MCTSNode
  | nodes, _, 0 => nodes
  | nodes, id, fuel + 1 =>
    let n := nodes.getD id default
    let nodes2 := nodes.set id { n with visits := n.visits + 1, wins := n.wins + dw }
    match n.parent with
    | none => nodes2
    | some p => backpropWalk dw nodes2 p fuel

/-- Treatment of one simulation result during backpropagation (mcts.rs
MCTSArena::backpropagate, one arm of the outer for loop): a win for the
analysis root player adds 1 to wins along the chain, a draw adds epsDraw,
any other decisive result adds 0; visits always gains 1.  The InProgress arm
is unreachable! in the source and is modelled as a no-op; no caller ever
passes a nonterminal result. -/
def bpStep (player : Player) (ns : List MCTSNode) (pr : Nat × GameState) :
    List MCTSNode :=
  match pr.2 with
  | GameState.InProgress => ns
  | GameState.Won winner =>
      backpropWalk (if player = winner then 1 else 0) ns pr.1 (pr.1 + 1)
  | GameState.Draw => backpropWalk epsDraw ns pr.1 (pr.1 + 1)

/-- Backpropagation over the accumulated simulation results (mcts.rs
MCTSArena::backpropagate, outer for loop). -/
def backpropagate (nodes : List MCTSNode) (results : List (Nat × GameState))
    (player : Player) : List MCTSNode :=
  results.foldl (bpStep player) nodes

/-- Parent chain from a node: the node itself, then its ancestors until a
parentless node is reached (fuel bounds the walk as in backpropWalk). -/
def parentChain (nodes : List MCTSNode) : Nat → Nat → List Nat
  | _, 0 => []
  | id, fuel + 1 =>
    match (nodes.getD id default).parent with
    | none => [id]
    | some p => id :: parentChain nodes p fuel

/-- Run one rollout per child (mcts.rs: the rayon fan-out over the freshly
expanded siblings, joined in order before backpropagation); calls counts
simulate calls so each rollout reads its own oracle stream.  none models a
panicking rollout. -/
def collectSims (oracle : Nat → Nat → Nat) (a : MCTSArena) :
    List Nat → Nat → Option (List (Nat × GameState) × Nat)
  | [], calls => some ([], calls)
  | c :: rest, calls =>
    match simulateFuel (oracle calls) 0 81 (a.resolve c).board with
    | none => none
    | some g =>
      match collectSims oracle a rest (calls + 1) with
      | none => none
      | some pr => some ((c, g) :: pr.1, pr.2)

/-- Iteration loop of analyze (mcts.rs MCTSArena::analyze, while n_iters > 0).
The simulation_results vector lives across iterations: the expand branch
replaces it (collect_into_vec clears before collecting) while the terminal
branch pushes onto whatever it already holds, exactly as in the source. -/
def analyzeLoop (score : MCTSNode → MCTSNode → ℚ) (oracle : Nat → Nat → Nat) (id : Nat) :
    MCTSArena → List (Nat × GameState) → Nat → Nat →
    Option (MCTSArena × List (Nat × GameState) × Nat)
  | a, results, calls, 0 => some (a, results, calls)
  | a, results, calls, n + 1 =>
    match a.select score id with
    | none => none
    | some (BestNode.Expand e) =>
      let a2 := a.expand e
      let cs := (a2.resolve e).children.getD []
      match collectSims oracle a2 cs calls with
      | none => none
      | some (results2, calls2) =>
        let player := (a2.resolve id).board.next_player
        let a3 : MCTSArena := ⟨backpropagate a2.nodes results2 player⟩
        analyzeLoop score oracle id a3 results2 calls2 n
    | some (BestNode.NodeId t) =>
      let results2 := results ++ [(t, (a.resolve t).board.check_game_state)]
      let player := (a.resolve id).board.next_player
      let a3 : MCTSArena := ⟨backpropagate a.nodes results2 player⟩
      analyzeLoop score oracle id a3 results2 calls n

/-- Full analyze call (mcts.rs MCTSArena::analyze): run the iteration budget,
then return the best child of the analyzed node together with its win rate as
a percentage. -/
def MCTSArena.analyze (a : MCTSArena) (score : MCTSNode → MCTSNode → ℚ)
    (oracle : Nat → Nat → Nat) (id : Nat) (n_iters : Nat) :
    Option (MCTSArena × ℚ × Nat) :=
  match analyzeLoop score oracle id a [] 0 n_iters with
  | none => none
  | some (a2, _, _) =>
    match a2.select_best_child id with
    | none => none
    | some best =>
      some (a2, (a2.resolve best).wins / (a2.resolve best).visits * 100, best)

/-- Structural arena invariant: node 0 is the unique parentless root, parent
links point to strictly smaller indices, and children lists point to strictly
larger in-range indices. -/
def WFArena (a : MCTSArena) : Prop :=
  ∀ i, i < a.nodes.length →
    ((a.resolve i).parent = none ↔ i = 0) ∧
    (∀ p, (a.resolve i).parent = some p → p < i) ∧
    (∀ cs, (a.resolve i).children = some cs → ∀ c, c ∈ cs → i < c ∧ c < a.nodes.length)

/-- Visit invariant of the claim: every attached children list is nonempty
and all its members have been visited at least once. -/
def ChildInv (a : MCTSArena) : Prop :=
  ∀ i, i < a.nodes.length → ∀ cs, (a.resolve i).children = some cs →
    cs ≠ [] ∧ ∀ c, c ∈ cs → 1 ≤ (a.resolve c).visits

/-- All boards stored in the arena are well formed. -/
def BoardsWF (a : MCTSArena) : Prop :=
  ∀ i, i < a.nodes.length → (a.resolve i).board.wf = true

/-- All visit counters are nonnegative (true of every arena the code builds). -/
def VisitsNonneg (a : MCTSArena) : Prop :=
  ∀ i, i < a.nodes.length → 0 ≤ (a.resolve i).visits

/-! ### Basic bit-level lemmas -/

lemma one_shl (i : Nat) : 1 <<< i = 2 ^ i := by
  rw [Nat.shiftLeft_eq, one_mul]

lemma and_one_shl_ne (n i : Nat) : ((n &&& (1 <<< i)) != 0) = n.testBit i := by
  rw [one_shl, Nat.and_two_pow]
  cases h : n.testBit i <;> simp [h, Nat.pow_eq_zero]

lemma testBit_511 (k : Nat) : (0b111111111 : Nat).testBit k = decide (k < 9) := by
  have h : (0b111111111 : Nat) = 2 ^ 9 - 1 := by norm_num
  rw [h, Nat.testBit_two_pow_sub_one]

lemma testBit_ALL (k : Nat) : ALL_CELLS.testBit k = decide (k < 81) := by
  have h : ALL_CELLS = 2 ^ 81 - 1 := by norm_num [ALL_CELLS]
  rw [h, Nat.testBit_two_pow_sub_one]

lemma not128_testBit (n k : Nat) (hk : k < 128) : (not128 n).testBit k = !n.testBit k := by
  rw [not128, Nat.testBit_xor, Nat.testBit_two_pow_sub_one]
  simp [hk, Bool.xor_true]

lemma not16_testBit (n k : Nat) (hk : k < 16) : (not16 n).testBit k = !n.testBit k := by
  rw [not16, Nat.testBit_xor, Nat.testBit_two_pow_sub_one]
  simp [hk, Bool.xor_true]

lemma shl_shl (a b : Nat) : (1 <<< a) <<< b = 2 ^ (a + b) := by
  rw [Nat.shiftLeft_eq, Nat.shiftLeft_eq, one_mul, ← pow_add]

lemma move_decode (g l : Nat) (hg : g < 16) (hl : l < 16) :
    (Board.move_from_gl g l) &&& 0b1111 = l ∧
    ((Board.move_from_gl g l) >>> 4) &&& 0b1111 = g := by
  have H : ∀ g2, g2 < 16 → ∀ l2, l2 < 16 →
      ((Board.move_from_gl g2 l2) &&& 0b1111 = l2 ∧
       ((Board.move_from_gl g2 l2) >>> 4) &&& 0b1111 = g2) := by decide
  exact H g hg l hl

/-! ### global_board_mask characterization -/

lemma gmaskIter_testBit (d : Nat) :
    ∀ t, t ≤ 9 → ∀ k, (gmaskIter d t).testBit k =
      (decide (k < 9 * t) && d.testBit (k / 9 + 9 - t)) := by
  intro t
  induction t with
  | zero => intro _ k; simp [gmaskIter]
  | succ t IH =>
    intro ht k
    have IH2 := IH (by omega)
    rw [gmaskIter, gmaskStep, and_one_shl_ne]
    rcases Nat.lt_or_ge k 9 with hk | hk
    · have hdiv : k / 9 = 0 := Nat.div_eq_of_lt hk
      have hidx : k / 9 + 9 - (t + 1) = 8 - t := by omega
      have hrange : (decide (k < 9 * (t + 1))) = true := by
        simp; omega
      rw [hidx, hrange, Bool.true_and]
      cases hc : d.testBit (8 - t) <;>
        simp [hc, Nat.testBit_or, Nat.testBit_shiftLeft, testBit_511, hk,
          Nat.not_le.mpr hk]
    · have hidx : (k - 9) / 9 + 9 - t = k / 9 + 9 - (t + 1) := by omega
      have hrange : (decide (k - 9 < 9 * t)) = (decide (k < 9 * (t + 1))) := by
        simp only [decide_eq_decide]; omega
      have hstep : ∀ A : Nat, ((A <<< 9) ||| 0b111111111).testBit k = A.testBit (k - 9) := by
        intro A
        simp [Nat.testBit_or, Nat.testBit_shiftLeft, testBit_511, hk, Nat.not_lt.mpr hk]
      have hstep2 : ∀ A : Nat, (A <<< 9).testBit k = A.testBit (k - 9) := by
        intro A
        simp [Nat.testBit_shiftLeft, hk]
      cases hc : d.testBit (8 - t) <;>
        simp only [hc, if_true, if_false, Bool.false_eq_true, ite_true, ite_false,
          hstep, hstep2, IH2, hidx, hrange]

lemma gmask_testBit (b : Board) (k : Nat) (hk : k < 81) :
    (b.global_board_mask).testBit k = (b.gx ||| b.go).testBit (k / 9) := by
  rw [Board.global_board_mask, gmaskIter_testBit _ 9 (by omega)]
  have h1 : (decide (k < 9 * 9)) = true := by simp; omega
  have h2 : k / 9 + 9 - 9 = k / 9 := by omega
  rw [h1, h2, Bool.true_and]

/-! ### get_moves characterization -/

lemma get_moves_none (b : Board) (h : b.last_move = none) : b.get_moves = ALL_CELLS := by
  rw [Board.get_moves, h]

lemma get_moves_decided_testBit (b : Board) (m : Nat) (hb : b.last_move = some m)
    (hd : b.check_board_state (m &&& 0b1111) ≠ GameState.InProgress) (k : Nat) :
    (b.get_moves).testBit k =
      (decide (k < 81) && !(b.x ||| b.o).testBit k && !(b.gx ||| b.go).testBit (k / 9)) := by
  simp only [Board.get_moves, hb]
  rcases hcs : b.check_board_state (m &&& 0b1111) with p | _ | _ <;>
    [skip; skip; exact absurd hcs hd] <;>
  · show (not128 (b.x ||| b.o ||| b.global_board_mask) &&& ALL_CELLS).testBit k = _
    rw [Nat.testBit_and, testBit_ALL]
    rcases Nat.lt_or_ge k 81 with hk | hk
    · rw [not128_testBit _ _ (by omega), Nat.testBit_or, Nat.testBit_or, gmask_testBit b k hk]
      simp [hk, Bool.not_or, Bool.and_assoc]
    · simp [Nat.not_lt.mpr hk, hk]

lemma get_moves_inprogress_testBit (b : Board) (m : Nat) (hb : b.last_move = some m)
    (hd : b.check_board_state (m &&& 0b1111) = GameState.InProgress) (k : Nat) :
    (b.get_moves).testBit k =
      (decide (k < 81) && !(b.x ||| b.o).testBit k && decide (k / 9 = m &&& 0b1111)) := by
  simp only [Board.get_moves, hb, hd]
  rcases Nat.lt_or_ge k 128 with hk | hk
  · rw [Nat.testBit_and, Nat.testBit_and, testBit_ALL, not128_testBit _ _ hk,
      Nat.testBit_shiftLeft, testBit_511]
    have hiff : (9 * (m &&& 0b1111) ≤ k ∧ k - 9 * (m &&& 0b1111) < 9) ↔ k / 9 = m &&& 0b1111 := by
      omega
    rcases Nat.lt_or_ge k 81 with hk81 | hk81
    · by_cases ht : k / 9 = m &&& 0b1111
      · have h1 : 9 * (m &&& 0b1111) ≤ k := (hiff.mpr ht).1
        have h2 : k - 9 * (m &&& 0b1111) < 9 := (hiff.mpr ht).2
        simp [hk81, ht, h1, h2, Bool.and_comm]
      · have h3 : ¬(9 * (m &&& 0b1111) ≤ k ∧ k - 9 * (m &&& 0b1111) < 9) := fun hc =>
          ht (hiff.mp hc)
        rcases Nat.lt_or_ge k (9 * (m &&& 0b1111)) with hlt | hge
        · simp [ht, Nat.not_le.mpr hlt]
        · have h4 : ¬(k - 9 * (m &&& 0b1111) < 9) := fun hc => h3 ⟨hge, hc⟩
          simp [ht, h4]
    · simp [Nat.not_lt.mpr hk81, hk81]
  · have h5 : ALL_CELLS.testBit k = false := by
      rw [testBit_ALL]; simp; omega
    rw [Nat.testBit_and, Nat.testBit_and, h5]
    simp; omega

/-! ### Win-pattern spec predicate -/

/-- Spec predicate of the claim: a 9-bit pattern P contains a three-in-a-row
iff some mask M among the 8 satisfies P & M == M. -/
def containsWin (p : Nat) : Prop := ∃ mk ∈ WIN_MASKS, p &&& mk = mk

instance containsWin.dec : DecidablePred containsWin := fun p => by
  unfold containsWin; infer_instance

lemma anyWinMask_iff (p : Nat) : anyWinMask p = true ↔ containsWin p := by
  simp [anyWinMask, containsWin, List.any_eq_true]

/-! ### Claim C1 -/

/-- C1: get_moves follows the dual legality rule.  With no prior move every
one of the 81 cells is legal.  Otherwise, with target the cell index of
last_move: if target is decided (won or drawn), the legal cells are exactly
the empty cells of the undecided sub-boards; if target is undecided, the
legal cells are exactly the empty cells within target. -/
theorem get_moves_dual_legality (b : Board) :
    (b.last_move = none → ∀ k, ((b.get_moves).testBit k = true ↔ k < 81)) ∧
    (∀ m, b.last_move = some m →
      (b.check_board_state (m &&& 0b1111) ≠ GameState.InProgress →
        ∀ k, ((b.get_moves).testBit k = true ↔
          k < 81 ∧ (b.x ||| b.o).testBit k = false ∧
            (b.gx ||| b.go).testBit (k / 9) = false)) ∧
      (b.check_board_state (m &&& 0b1111) = GameState.InProgress →
        ∀ k, ((b.get_moves).testBit k = true ↔
          k < 81 ∧ (b.x ||| b.o).testBit k = false ∧ k / 9 = m &&& 0b1111))) := by
  refine ⟨fun h k => ?_, fun m hb => ⟨fun hd k => ?_, fun hd k => ?_⟩⟩
  · rw [get_moves_none b h, testBit_ALL]
    simp
  · rw [get_moves_decided_testBit b m hb hd k]
    cases hocc : (b.x ||| b.o).testBit k <;>
      cases hg : (b.gx ||| b.go).testBit (k / 9) <;> simp [hocc, hg]
  · rw [get_moves_inprogress_testBit b m hb hd k]
    cases hocc : (b.x ||| b.o).testBit k <;> simp [hocc]

/-- C1 witness: the initial board admits cell 5, and the board of the Rust
unit test (after X plays sub-board 0 cell 0) restricts play to the empty
cells of sub-board 0. -/
theorem get_moves_dual_legality_witness :
    ((Board.initial.get_moves).testBit 5 = true ↔ 5 < 81) ∧
    (((Board.initial.unchecked_play (Board.move_from_gl 0 0)).get_moves).testBit 4 = true ↔
      4 < 81 ∧ ((Board.initial.unchecked_play (Board.move_from_gl 0 0)).x |||
        (Board.initial.unchecked_play (Board.move_from_gl 0 0)).o).testBit 4 = false ∧
        4 / 9 = 0 &&& 0b1111) :=
  ⟨(get_moves_dual_legality Board.initial).1 rfl 5,
   ((get_moves_dual_legality (Board.initial.unchecked_play (Board.move_from_gl 0 0))).2
      0 rfl).2 (by decide) 4⟩

/-! ### Claim C2 -/

/-- Board whose decided-sub-board sets give both players a three-in-a-row on
disjoint lines. -/
def doubleWinBoard : Board :=
  { x := 0, o := 0, gx := 0b111000000, go := 0b000111000,
    next_player := Player.X, last_move := none }

/-- C2 counterexample: on doubleWinBoard the 9-bit pattern of sub-boards
decided for O (nothing is drawn) contains a three-in-a-row mask, yet
check_game_state does not return Won O — it returns Won X, because the X test
runs first.  The per-player biconditional of the claim therefore fails. -/
theorem check_game_state_no_per_player_iff :
    containsWin (doubleWinBoard.go &&& not16 (doubleWinBoard.gx &&& doubleWinBoard.go)) ∧
    doubleWinBoard.check_game_state ≠ GameState.Won Player.O ∧
    doubleWinBoard.check_game_state = GameState.Won Player.X := by
  refine ⟨⟨0b000111000, by decide, by decide⟩, by decide, by decide⟩

/-- C2 (amended): check_game_state returns Won X iff the 9-bit pattern of
sub-boards decided for X, excluding drawn sub-boards, contains one of the 8
masks; otherwise it returns Won O iff the corresponding O pattern contains a
mask; otherwise it returns Draw iff gx | go covers all 9 bits; otherwise it
returns InProgress. -/
theorem check_game_state_spec (b : Board) :
    (b.check_game_state = GameState.Won Player.X ↔
      containsWin (b.gx &&& not16 (b.gx &&& b.go))) ∧
    (b.check_game_state = GameState.Won Player.O ↔
      (¬containsWin (b.gx &&& not16 (b.gx &&& b.go)) ∧
       containsWin (b.go &&& not16 (b.gx &&& b.go)))) ∧
    (b.check_game_state = GameState.Draw ↔
      (¬containsWin (b.gx &&& not16 (b.gx &&& b.go)) ∧
       ¬containsWin (b.go &&& not16 (b.gx &&& b.go)) ∧
       (b.gx ||| b.go) = 0b111111111)) ∧
    (b.check_game_state = GameState.InProgress ↔
      (¬containsWin (b.gx &&& not16 (b.gx &&& b.go)) ∧
       ¬containsWin (b.go &&& not16 (b.gx &&& b.go)) ∧
       (b.gx ||| b.go) ≠ 0b111111111)) := by
  unfold Board.check_game_state
  rcases hx : anyWinMask (b.gx &&& not16 (b.gx &&& b.go)) <;>
    rcases ho : anyWinMask (b.go &&& not16 (b.gx &&& b.go)) <;>
      by_cases hd : (b.gx ||| b.go) = 0b111111111 <;>
        simp_all [anyWinMask_iff, ← anyWinMask_iff, hx, ho, hd]

/-! ### update_board_state and unchecked_play lemmas -/

lemma update_board_state_eq (b : Board) (g : Nat) :
    (b.update_board_state g).1 =
      if anyWinMask ((b.x >>> (g * 9)) &&& 0b111111111) then
        { b with gx := b.gx ||| (1 <<< g) }
      else if anyWinMask ((b.o >>> (g * 9)) &&& 0b111111111) then
        { b with go := b.go ||| (1 <<< g) }
      else if (((b.x >>> (g * 9)) &&& 0b111111111) |||
          ((b.o >>> (g * 9)) &&& 0b111111111)) == 0b111111111 then
        { b with gx := b.gx ||| (1 <<< g), go := b.go ||| (1 <<< g) }
      else b := by
  simp only [Board.update_board_state]
  split_ifs <;> rfl

lemma ubs_fields (b : Board) (g : Nat) :
    ((b.update_board_state g).1).x = b.x ∧ ((b.update_board_state g).1).o = b.o ∧
    ((b.update_board_state g).1).next_player = b.next_player ∧
    ((b.update_board_state g).1).last_move = b.last_move := by
  rw [update_board_state_eq]
  split_ifs <;> exact ⟨rfl, rfl, rfl, rfl⟩

lemma ubs_gx_cases (b : Board) (g : Nat) :
    (((b.update_board_state g).1).gx = b.gx ∨
      ((b.update_board_state g).1).gx = b.gx ||| (1 <<< g)) ∧
    (((b.update_board_state g).1).go = b.go ∨
      ((b.update_board_state g).1).go = b.go ||| (1 <<< g)) := by
  rw [update_board_state_eq]
  split_ifs <;> refine ⟨?_, ?_⟩ <;> first | exact Or.inl rfl | exact Or.inr rfl

lemma ubs_frame (b : Board) (g j : Nat) (hj : j ≠ g) :
    (((b.update_board_state g).1).gx.testBit j = b.gx.testBit j) ∧
    (((b.update_board_state g).1).go.testBit j = b.go.testBit j) := by
  have hg : g ≠ j := Ne.symm hj
  rw [update_board_state_eq]
  split_ifs <;> refine ⟨?_, ?_⟩ <;>
    simp [Nat.testBit_or, one_shl, Nat.testBit_two_pow, hg]

lemma ubs_clear_not_full (b : Board) (g : Nat)
    (h : ((((b.update_board_state g).1).gx ||| ((b.update_board_state g).1).go).testBit g)
      = false) :
    (((b.x >>> (g * 9)) &&& 0b111111111) ||| ((b.o >>> (g * 9)) &&& 0b111111111))
      ≠ 0b111111111 := by
  rw [update_board_state_eq] at h
  split_ifs at h with h1 h2 h3
  · simp [Nat.testBit_or, one_shl, Nat.testBit_two_pow] at h
  · simp [Nat.testBit_or, one_shl, Nat.testBit_two_pow] at h
  · simp [Nat.testBit_or, one_shl, Nat.testBit_two_pow] at h
  · simpa using h3

lemma unchecked_play_eq (b : Board) (m : Nat) :
    b.unchecked_play m =
      { ((match b.next_player with
          | Player.X => { b with x := b.x ||| 2 ^ (((m >>> 4) &&& 0b1111) * 9 + (m &&& 0b1111)) }
          | Player.O => { b with o := b.o ||| 2 ^ (((m >>> 4) &&& 0b1111) * 9 + (m &&& 0b1111)) }
          ).update_board_state ((m >>> 4) &&& 0b1111)).1 with
        last_move := some m, next_player := b.next_player.other } := by
  cases hp : b.next_player <;> simp [Board.unchecked_play, hp, shl_shl]

lemma and_or_self_left (a c : Nat) : a &&& (a ||| c) = a := by
  apply Nat.eq_of_testBit_eq
  intro i
  rw [Nat.testBit_and, Nat.testBit_or]
  cases a.testBit i <;> simp

lemma move_from_gl_eq (g l : Nat) (hg : g < 16) (hl : l < 16) :
    Board.move_from_gl g l = 16 * g + l := by
  have H : ∀ a, a < 16 → ∀ a2, a2 < 16 → Board.move_from_gl a a2 = 16 * a + a2 := by decide
  exact H g hg l hl

lemma move_decompose (m g c : Nat) (hm : m = 16 * g + c) (hg : g < 16) (hc : c < 16) :
    m &&& 0b1111 = c ∧ (m >>> 4) &&& 0b1111 = g := by
  have h15 : (0b1111 : Nat) = 2 ^ 4 - 1 := by norm_num
  constructor
  · rw [h15, Nat.and_pow_two_sub_one_eq_mod, hm]
    omega
  · rw [h15, Nat.and_pow_two_sub_one_eq_mod, Nat.shiftRight_eq_div_pow, hm]
    have : (16 * g + c) / 2 ^ 4 = g := by omega
    rw [this]
    omega

lemma up_x (b : Board) (m : Nat) : (b.unchecked_play m).x =
    match b.next_player with
    | Player.X => b.x ||| 2 ^ (((m >>> 4) &&& 0b1111) * 9 + (m &&& 0b1111))
    | Player.O => b.x := by
  rw [unchecked_play_eq]
  cases hp : b.next_player <;> simp only [hp] <;> exact (ubs_fields _ _).1

lemma up_o (b : Board) (m : Nat) : (b.unchecked_play m).o =
    match b.next_player with
    | Player.X => b.o
    | Player.O => b.o ||| 2 ^ (((m >>> 4) &&& 0b1111) * 9 + (m &&& 0b1111)) := by
  rw [unchecked_play_eq]
  cases hp : b.next_player <;> simp only [hp] <;> exact (ubs_fields _ _).2.1

lemma up_next (b : Board) (m : Nat) :
    (b.unchecked_play m).next_player = b.next_player.other := rfl

lemma up_last (b : Board) (m : Nat) : (b.unchecked_play m).last_move = some m := rfl

lemma up_gxgo_frame (b : Board) (m j : Nat) (hj : j ≠ (m >>> 4) &&& 0b1111) :
    (b.unchecked_play m).gx.testBit j = b.gx.testBit j ∧
    (b.unchecked_play m).go.testBit j = b.go.testBit j := by
  rw [unchecked_play_eq]
  cases hp : b.next_player <;> simp only [hp] <;> exact ubs_frame _ _ j hj

lemma up_gxgo_cases (b : Board) (m : Nat) :
    ((b.unchecked_play m).gx = b.gx ∨
      (b.unchecked_play m).gx = b.gx ||| (1 <<< ((m >>> 4) &&& 0b1111))) ∧
    ((b.unchecked_play m).go = b.go ∨
      (b.unchecked_play m).go = b.go ||| (1 <<< ((m >>> 4) &&& 0b1111))) := by
  rw [unchecked_play_eq]
  cases hp : b.next_player <;> simp only [hp] <;> exact ubs_gx_cases _ _

/-! ### Claim C3 -/

/-- C3: unchecked_play on a move addressing sub-board g and cell c sets the
mover's bit for cell (g, c), flips next_player, records last_move, and frames
everything else: the opponent's occupancy is unchanged, the mover's bits
outside (g, c) are unchanged, and the gx/go bits of every sub-board other
than g are unchanged.  No legality or turn validation is performed: the
theorem has no hypothesis beyond the move encoding itself. -/
theorem unchecked_play_effect (b : Board) (m g c : Nat) (hm : m = 16 * g + c)
    (hg : g < 9) (hc : c < 9) :
    (match b.next_player with
     | Player.X =>
        (b.unchecked_play m).x.testBit (9 * g + c) = true ∧
        (b.unchecked_play m).o = b.o ∧
        ∀ k, k ≠ 9 * g + c → (b.unchecked_play m).x.testBit k = b.x.testBit k
     | Player.O =>
        (b.unchecked_play m).o.testBit (9 * g + c) = true ∧
        (b.unchecked_play m).x = b.x ∧
        ∀ k, k ≠ 9 * g + c → (b.unchecked_play m).o.testBit k = b.o.testBit k) ∧
    (b.unchecked_play m).next_player = b.next_player.other ∧
    (b.unchecked_play m).last_move = some m ∧
    (∀ j, j ≠ g →
      (b.unchecked_play m).gx.testBit j = b.gx.testBit j ∧
      (b.unchecked_play m).go.testBit j = b.go.testBit j) := by
  obtain ⟨hml, hmg⟩ := move_decompose m g c hm (by omega) (by omega)
  have hbit : ((m >>> 4) &&& 0b1111) * 9 + (m &&& 0b1111) = 9 * g + c := by
    rw [hml, hmg]; ring
  refine ⟨?_, up_next b m, up_last b m, fun j hj => up_gxgo_frame b m j (by omega)⟩
  cases hp : b.next_player <;> simp only [hp]
  · refine ⟨?_, ?_, fun k hk => ?_⟩
    · rw [up_x, hp, hbit, Nat.testBit_or, Nat.testBit_two_pow]
      simp
    · rw [up_o, hp]
    · rw [up_x, hp, hbit, Nat.testBit_or, Nat.testBit_two_pow]
      simp [Ne.symm hk]
  · refine ⟨?_, ?_, fun k hk => ?_⟩
    · rw [up_o, hp, hbit, Nat.testBit_or, Nat.testBit_two_pow]
      simp
    · rw [up_x, hp]
    · rw [up_o, hp, hbit, Nat.testBit_or, Nat.testBit_two_pow]
      simp [Ne.symm hk]

/-- C3 witness: X playing sub-board 4 cell 4 from the initial board. -/
theorem unchecked_play_effect_witness :
    ((Board.initial.unchecked_play 68).x.testBit 40 = true ∧
     (Board.initial.unchecked_play 68).o = Board.initial.o ∧
     ∀ k, k ≠ 40 → (Board.initial.unchecked_play 68).x.testBit k =
       Board.initial.x.testBit k) ∧
    (Board.initial.unchecked_play 68).next_player = Player.X.other ∧
    (Board.initial.unchecked_play 68).last_move = some 68 ∧
    (∀ j, j ≠ 4 →
      (Board.initial.unchecked_play 68).gx.testBit j = Board.initial.gx.testBit j ∧
      (Board.initial.unchecked_play 68).go.testBit j = Board.initial.go.testBit j) :=
  unchecked_play_effect Board.initial 68 4 4 (by decide) (by decide) (by decide)

/-! ### Claim C10 -/

/-- C10: unchecked_play, with no precondition at all on the move or the
board, only ever adds bits: the x, o, gx and go fields of the result are
bitwise supersets of the originals, so occupied cells are never vacated and a
decided sub-board never reverts. -/
theorem unchecked_play_supersets (b : Board) (m : Nat) :
    b.x &&& (b.unchecked_play m).x = b.x ∧
    b.o &&& (b.unchecked_play m).o = b.o ∧
    b.gx &&& (b.unchecked_play m).gx = b.gx ∧
    b.go &&& (b.unchecked_play m).go = b.go := by
  refine ⟨?_, ?_, ?_, ?_⟩
  · rw [up_x]
    cases hp : b.next_player <;> simp only
    · exact and_or_self_left _ _
    · exact Nat.and_self b.x
  · rw [up_o]
    cases hp : b.next_player <;> simp only
    · exact Nat.and_self b.o
    · exact and_or_self_left _ _
  · rcases (up_gxgo_cases b m).1 with h | h <;> rw [h]
    · exact Nat.and_self b.gx
    · exact and_or_self_left _ _
  · rcases (up_gxgo_cases b m).2 with h | h <;> rw [h]
    · exact Nat.and_self b.go
    · exact and_or_self_left _ _

/-! ### Well-formedness machinery -/

lemma exists_clear_bit (u : Nat) (hu : u < 512) (hne : u ≠ 511) :
    ∃ c, c < 9 ∧ u.testBit c = false := by
  have H : ∀ v, v < 512 → v = 511 ∨ (List.range 9).any (fun c => !v.testBit c) = true := by
    set_option maxRecDepth 8192 in decide
  rcases H u hu with h | h
  · exact absurd h hne
  · obtain ⟨c, hc, hcb⟩ := List.any_eq_true.mp h
    exact ⟨c, List.mem_range.mp hc, by simpa using hcb⟩

lemma subBits_testBit (u s c : Nat) (hc : c < 9) :
    ((u >>> s) &&& 0b111111111).testBit c = u.testBit (s + c) := by
  rw [Nat.testBit_and, testBit_511, Nat.testBit_shiftRight]
  simp [hc]

lemma subBits_lt (u s : Nat) : (u >>> s) &&& 0b111111111 < 512 :=
  Nat.lt_succ_of_le Nat.and_le_right

lemma wf_iff (b : Board) : b.wf = true ↔
    (b.gx < 512 ∧ b.go < 512 ∧
     (∀ j, j < 9 → (b.gx ||| b.go).testBit j = false →
       ∃ c, c < 9 ∧ (b.x ||| b.o).testBit (9 * j + c) = false) ∧
     (∀ m, b.last_move = some m → m &&& 0b1111 < 9) ∧
     (b.last_move = none → b.x = 0 ∧ b.o = 0)) := by
  unfold Board.wf
  cases hl : b.last_move
  · simp only [hl, Bool.and_eq_true, decide_eq_true_eq, List.all_eq_true,
      List.any_eq_true, List.mem_range, beq_iff_eq,
      Bool.not_eq_true', Bool.or_eq_true]
    constructor
    · rintro ⟨⟨⟨h1, h2⟩, h3⟩, h4, h5⟩
      refine ⟨h1, h2, ?_, ?_, ?_⟩
      · intro j hj hbit
        rcases h3 j hj with h | ⟨c, hc, hcb⟩
        · rw [hbit] at h; cases h
        · exact ⟨c, hc, hcb⟩
      · intro m hm
        exact absurd hm (by simp)
      · intro _
        exact ⟨h4, h5⟩
    · rintro ⟨h1, h2, h3, _, h5⟩
      obtain ⟨hx0, ho0⟩ := h5 trivial
      refine ⟨⟨⟨h1, h2⟩, ?_⟩, hx0, ho0⟩
      intro j hj
      rcases hb : (b.gx ||| b.go).testBit j with _ | _
      · obtain ⟨c, hc, hcb⟩ := h3 j hj hb
        exact Or.inr ⟨c, hc, hcb⟩
      · exact Or.inl rfl
  · rename_i m
    simp only [hl, Bool.and_eq_true, decide_eq_true_eq, List.all_eq_true,
      List.any_eq_true, List.mem_range, beq_iff_eq, Option.some.injEq,
      Bool.not_eq_true', Bool.or_eq_true]
    constructor
    · rintro ⟨⟨⟨h1, h2⟩, h3⟩, h4⟩
      refine ⟨h1, h2, ?_, ?_, ?_⟩
      · intro j hj hbit
        rcases h3 j hj with h | ⟨c, hc, hcb⟩
        · rw [hbit] at h; cases h
        · exact ⟨c, hc, hcb⟩
      · intro m2 hm2
        rw [← hm2]
        exact h4
      · intro hcon
        exact absurd hcon (by simp)
    · rintro ⟨h1, h2, h3, h4, _⟩
      refine ⟨⟨⟨h1, h2⟩, ?_⟩, h4 m rfl⟩
      intro j hj
      rcases hb : (b.gx ||| b.go).testBit j with _ | _
      · obtain ⟨c, hc, hcb⟩ := h3 j hj hb
        exact Or.inr ⟨c, hc, hcb⟩
      · exact Or.inl rfl

lemma game_over_false_iff (b : Board) :
    b.game_over = false ↔ b.check_game_state = GameState.InProgress := by
  rcases hcs : b.check_game_state with p | _ | _ <;> simp [Board.game_over, hcs]

lemma game_over_true_not_inprogress (b : Board) (h : b.game_over = true) :
    b.check_game_state ≠ GameState.InProgress := by
  intro hcs
  rw [(game_over_false_iff b).mpr hcs] at h
  cases h

lemma cgs_inprogress_ne_full (b : Board) (h : b.check_game_state = GameState.InProgress) :
    (b.gx ||| b.go) ≠ 0b111111111 := by
  intro hfull
  unfold Board.check_game_state at h
  rw [hfull] at h
  rcases h1 : anyWinMask (b.gx &&& not16 (b.gx &&& b.go)) <;>
    rcases h2 : anyWinMask (b.go &&& not16 (b.gx &&& b.go)) <;>
      simp [h1, h2] at h

lemma or_lt_512 (a b : Nat) (ha : a < 512) (hb : b < 512) : a ||| b < 512 := by
  have h9 : (512 : Nat) = 2 ^ 9 := by norm_num
  rw [h9] at ha hb ⊢
  exact Nat.or_lt_two_pow ha hb

lemma wf_not_over_empty (b : Board) (hwf : b.wf = true) (hso : b.game_over = false) :
    0 < emptyCount b := by
  obtain ⟨hgx, hgo, hcell, _, _⟩ := (wf_iff b).mp hwf
  have hne := cgs_inprogress_ne_full b ((game_over_false_iff b).mp hso)
  obtain ⟨j, hj, hjb⟩ := exists_clear_bit (b.gx ||| b.go) (or_lt_512 _ _ hgx hgo) hne
  obtain ⟨c, hc, hcb⟩ := hcell j hj hjb
  refine List.countP_pos_iff.mpr ⟨9 * j + c, List.mem_range.mpr (by omega), ?_⟩
  simp [hcb]

lemma get_moves_lt (b : Board) : b.get_moves < 2 ^ 81 := by
  have hall : ALL_CELLS < 2 ^ 81 := by norm_num [ALL_CELLS]
  rcases hl : b.last_move with _ | m
  · rw [get_moves_none b hl]
    exact hall
  · simp only [Board.get_moves, hl]
    rcases hcb : b.check_board_state (m &&& 0b1111) with p | _ | _
    · exact Nat.lt_of_le_of_lt Nat.and_le_right hall
    · exact Nat.lt_of_le_of_lt Nat.and_le_right hall
    · exact Nat.lt_of_le_of_lt (Nat.le_trans Nat.and_le_left Nat.and_le_right) hall

lemma get_moves_empty (b : Board) (hwf : b.wf = true) (i : Nat)
    (hbit : (b.get_moves).testBit i = true) :
    i < 81 ∧ (b.x ||| b.o).testBit i = false := by
  obtain ⟨_, _, _, _, hnone⟩ := (wf_iff b).mp hwf
  rcases hl : b.last_move with _ | m
  · obtain ⟨hx0, ho0⟩ := hnone hl
    rw [get_moves_none b hl, testBit_ALL] at hbit
    refine ⟨by simpa using hbit, ?_⟩
    rw [hx0, ho0]
    simp
  · rcases hcs : b.check_board_state (m &&& 0b1111) with p | _ | _
    · rw [get_moves_decided_testBit b m hl (by rw [hcs]; simp) i,
        Bool.and_eq_true, Bool.and_eq_true] at hbit
      exact ⟨by simpa using hbit.1.1, by simpa using hbit.1.2⟩
    · rw [get_moves_decided_testBit b m hl (by rw [hcs]; simp) i,
        Bool.and_eq_true, Bool.and_eq_true] at hbit
      exact ⟨by simpa using hbit.1.1, by simpa using hbit.1.2⟩
    · rw [get_moves_inprogress_testBit b m hl hcs i,
        Bool.and_eq_true, Bool.and_eq_true] at hbit
      exact ⟨by simpa using hbit.1.1, by simpa using hbit.1.2⟩

lemma play_bit (i : Nat) (hi : i < 81) :
    ((Board.move_from_index i) >>> 4) &&& 0b1111 = i / 9 ∧
    (Board.move_from_index i) &&& 0b1111 = i % 9 ∧
    (((Board.move_from_index i) >>> 4) &&& 0b1111) * 9 +
      ((Board.move_from_index i) &&& 0b1111) = i := by
  obtain ⟨h1, h2⟩ := move_decode (i / 9) (i % 9) (by omega) (by omega)
  rw [Board.move_from_index]
  rw [h1, h2]
  omega

lemma up_occ (b : Board) (i : Nat) (hi : i < 81) :
    (b.unchecked_play (Board.move_from_index i)).x |||
      (b.unchecked_play (Board.move_from_index i)).o = (b.x ||| b.o) ||| 2 ^ i := by
  obtain ⟨hg, hl, ht⟩ := play_bit i hi
  rw [up_x, up_o, ht]
  cases hp : b.next_player <;> simp only
  · rw [Nat.or_assoc, Nat.or_comm (2 ^ i) b.o, ← Nat.or_assoc]
  · rw [Nat.or_assoc]

lemma countP_flip (t : Nat) (p q : Nat → Bool) :
    ∀ l : List Nat, l.Nodup → t ∈ l → p t = true → q t = false →
      (∀ s, s ∈ l → s ≠ t → p s = q s) → l.countP p = l.countP q + 1 := by
  intro l
  induction l with
  | nil => intro _ ht; cases ht
  | cons a l IH =>
    intro hnd hmem hpt hqt hagree
    rcases List.mem_cons.mp hmem with rfl | hmem2
    · have hnotin : t ∉ l := (List.nodup_cons.mp hnd).1
      have heq : l.countP p = l.countP q := by
        apply List.countP_congr
        intro s hs
        have hst : s ≠ t := fun h => hnotin (h ▸ hs)
        simp [hagree s (List.mem_cons_of_mem t hs) hst]
      rw [List.countP_cons, List.countP_cons, heq, hpt, hqt]
      simp
    · have hat : a ≠ t := by
        rintro rfl
        exact (List.nodup_cons.mp hnd).1 hmem2
      have IH2 := IH (List.nodup_cons.mp hnd).2 hmem2 hpt hqt
        (fun s hs hst => hagree s (List.mem_cons_of_mem a hs) hst)
      rw [List.countP_cons, List.countP_cons, IH2, hagree a (List.mem_cons_self a l) hat]
      omega

lemma emptyCount_play (b : Board) (i : Nat) (hi : i < 81)
    (hemp : (b.x ||| b.o).testBit i = false) :
    emptyCount b = emptyCount (b.unchecked_play (Board.move_from_index i)) + 1 := by
  unfold emptyCount
  apply countP_flip i _ _ (List.range 81) (List.nodup_range 81) (List.mem_range.mpr hi)
  · simp [hemp]
  · rw [up_occ b i hi]
    simp [Nat.testBit_or, Nat.testBit_two_pow]
  · intro s hs hst
    rw [up_occ b i hi]
    simp [Nat.testBit_or, Nat.testBit_two_pow, Ne.symm hst]

lemma up_as_update (b : Board) (m : Nat) :
    ∃ b1 : Board, b1.x = (b.unchecked_play m).x ∧ b1.o = (b.unchecked_play m).o ∧
      ((b1.update_board_state ((m >>> 4) &&& 0b1111)).1).gx = (b.unchecked_play m).gx ∧
      ((b1.update_board_state ((m >>> 4) &&& 0b1111)).1).go = (b.unchecked_play m).go := by
  rw [unchecked_play_eq]
  cases hp : b.next_player <;> simp only [hp] <;>
    exact ⟨_, (ubs_fields _ _).1.symm, (ubs_fields _ _).2.1.symm, rfl, rfl⟩

lemma up_g_clear (b : Board) (m : Nat)
    (h : ((b.unchecked_play m).gx ||| (b.unchecked_play m).go).testBit
      ((m >>> 4) &&& 0b1111) = false) :
    ((((b.unchecked_play m).x >>> (((m >>> 4) &&& 0b1111) * 9)) &&& 0b111111111) |||
     (((b.unchecked_play m).o >>> (((m >>> 4) &&& 0b1111) * 9)) &&& 0b111111111))
      ≠ 0b111111111 := by
  obtain ⟨b1, hx, ho, hgx, hgo⟩ := up_as_update b m
  rw [← hx, ← ho]
  rw [← hgx, ← hgo] at h
  exact ubs_clear_not_full b1 _ h

lemma wf_play (b : Board) (i : Nat) (hwf : b.wf = true) (hi : i < 81) :
    (b.unchecked_play (Board.move_from_index i)).wf = true := by
  obtain ⟨hgx, hgo, hcell, _, _⟩ := (wf_iff b).mp hwf
  obtain ⟨hg, hl, ht⟩ := play_bit i hi
  have hpow : 1 <<< (((Board.move_from_index i) >>> 4) &&& 0b1111) < 512 := by
    rw [one_shl, hg]
    calc 2 ^ (i / 9) ≤ 2 ^ 8 := Nat.pow_le_pow_right (by omega) (by omega)
      _ < 512 := by norm_num
  have hgxlt : (b.unchecked_play (Board.move_from_index i)).gx < 512 := by
    rcases (up_gxgo_cases b (Board.move_from_index i)).1 with h | h <;> rw [h]
    · exact hgx
    · exact or_lt_512 _ _ hgx hpow
  have hgolt : (b.unchecked_play (Board.move_from_index i)).go < 512 := by
    rcases (up_gxgo_cases b (Board.move_from_index i)).2 with h | h <;> rw [h]
    · exact hgo
    · exact or_lt_512 _ _ hgo hpow
  refine (wf_iff _).mpr ⟨hgxlt, hgolt, ?_, ?_, ?_⟩
  · intro j hj hbit
    by_cases hjg : j = i / 9
    · subst hjg
      have h2 : (((b.unchecked_play (Board.move_from_index i)).gx |||
          (b.unchecked_play (Board.move_from_index i)).go).testBit
            (((Board.move_from_index i) >>> 4) &&& 0b1111)) = false := by
        rw [hg]; exact hbit
      have h3 := up_g_clear b (Board.move_from_index i) h2
      obtain ⟨c, hc, hcb⟩ := exists_clear_bit _
        (or_lt_512 _ _ (subBits_lt _ _) (subBits_lt _ _)) h3
      refine ⟨c, hc, ?_⟩
      rw [Nat.testBit_or] at hcb ⊢
      rw [subBits_testBit _ _ _ hc, subBits_testBit _ _ _ hc] at hcb
      have harith : (((Board.move_from_index i) >>> 4) &&& 0b1111) * 9 + c
          = 9 * (i / 9) + c := by rw [hg]; ring
      rw [harith] at hcb
      exact hcb
    · have hfr := up_gxgo_frame b (Board.move_from_index i) j (by rw [hg]; exact hjg)
      have hold : (b.gx ||| b.go).testBit j = false := by
        rw [Nat.testBit_or] at hbit ⊢
        rw [hfr.1, hfr.2] at hbit
        exact hbit
      obtain ⟨c, hc, hcb⟩ := hcell j hj hold
      refine ⟨c, hc, ?_⟩
      rw [up_occ b i hi, Nat.testBit_or, Nat.testBit_two_pow, hcb]
      have hne : ¬(i = 9 * j + c) := by
        intro hcon
        apply hjg
        omega
      simp [hne]
  · intro m2 hm2
    rw [up_last] at hm2
    cases hm2
    rw [hl]
    omega
  · intro hcon
    rw [up_last] at hcon
    cases hcon

lemma disjoint_play (b : Board) (i : Nat) (hi : i < 81) (hd : b.x &&& b.o = 0)
    (hemp : (b.x ||| b.o).testBit i = false) :
    (b.unchecked_play (Board.move_from_index i)).x &&&
      (b.unchecked_play (Board.move_from_index i)).o = 0 := by
  obtain ⟨hg, hl, ht⟩ := play_bit i hi
  apply Nat.eq_of_testBit_eq
  intro k
  rw [Nat.testBit_and, Nat.zero_testBit]
  have hdk : (b.x.testBit k && b.o.testBit k) = false := by
    rw [← Nat.testBit_and, hd, Nat.zero_testBit]
  have hex : b.x.testBit i = false ∧ b.o.testBit i = false := by
    rw [Nat.testBit_or, Bool.or_eq_false_iff] at hemp
    exact hemp
  rw [up_x, up_o]
  cases hp : b.next_player <;> simp only [ht]
  · rw [Nat.testBit_or, Nat.testBit_two_pow]
    by_cases hk : i = k
    · subst hk
      simp [hex.2]
    · rw [show (decide (i = k)) = false by simp [hk], Bool.or_false]
      exact hdk
  · rw [Nat.testBit_or, Nat.testBit_two_pow]
    by_cases hk : i = k
    · subst hk
      simp [hex.1]
    · rw [show (decide (i = k)) = false by simp [hk], Bool.or_false]
      exact hdk

lemma reachable_inv (b : Board) (h : Reachable b) : b.wf = true ∧ b.x &&& b.o = 0 := by
  induction h with
  | init => exact ⟨by decide, by decide⟩
  | play hr hbit IH =>
    rename_i b2 i
    obtain ⟨hwf, hd⟩ := IH
    obtain ⟨hi, hemp⟩ := get_moves_empty b2 hwf i hbit
    exact ⟨wf_play b2 i hwf hi, disjoint_play b2 i hi hd hemp⟩

/-! ### Claim C9 -/

/-- C9: every Board reachable from the initial position by repeatedly playing
a move drawn from get_moves has disjoint X and O occupancy: x & o == 0. -/
theorem reachable_disjoint (b : Board) (h : Reachable b) : b.x &&& b.o = 0 :=
  (reachable_inv b h).2

/-- C9 witness: the initial position, and the position after one legal
move, have disjoint occupancy. -/
theorem reachable_disjoint_witness :
    Board.initial.x &&& Board.initial.o = 0 ∧
    (Board.initial.unchecked_play (Board.move_from_index 40)).x &&&
      (Board.initial.unchecked_play (Board.move_from_index 40)).o = 0 :=
  ⟨reachable_disjoint Board.initial Reachable.init,
   reachable_disjoint _ (Reachable.play Reachable.init (by decide))⟩

/-! ### count_ones and find_kth_high_bit_index -/

lemma count_ones_aux_zero : ∀ fuel, count_ones_aux fuel 0 = 0 := by
  intro fuel
  induction fuel with
  | zero => rfl
  | succ fuel IH => simp [count_ones_aux, IH]

lemma count_ones_aux_eq_countP :
    ∀ w F n, n < 2 ^ w → w ≤ F →
      count_ones_aux F n = (List.range w).countP (fun i => n.testBit i) := by
  intro w
  induction w with
  | zero =>
    intro F n hn _
    have : n = 0 := by omega
    subst this
    simp [count_ones_aux_zero]
  | succ w IH =>
    intro F n hn hF
    have hcnt : (List.range (w + 1)).countP (fun i => n.testBit i) =
        (List.range w).countP (fun i => (n / 2).testBit i) +
          (if n.testBit 0 then 1 else 0) := by
      rw [List.range_succ_eq_map, List.countP_cons, List.countP_map]
      congr 1
      apply List.countP_congr
      intro a _
      simp only [Function.comp]
      simp [Nat.succ_eq_add_one, Nat.testBit_succ]
    rcases F with _ | F2
    · omega
    · rw [count_ones_aux, hcnt]
      have hlt : n / 2 < 2 ^ w := by
        have hp : 2 ^ (w + 1) = 2 ^ w * 2 := by rw [Nat.pow_succ]
        omega
      rw [← IH F2 _ hlt (by omega)]
      rw [Nat.testBit_zero]
      by_cases hp : n % 2 = 1 <;> simp [hp] <;> omega

lemma count_ones_eq_countP (n : Nat) (h : n < 2 ^ 81) :
    count_ones n = (List.range 81).countP (fun i => n.testBit i) :=
  count_ones_aux_eq_countP 81 128 n h (by omega)

lemma findKthAux_isSome (n : Nat) :
    ∀ fuel i k, k < (List.range fuel).countP (fun d => n.testBit (i + d)) →
      ∃ j, findKthAux n k i fuel = some j := by
  intro fuel
  induction fuel with
  | zero =>
    intro i k hk
    simp at hk
  | succ fuel IH =>
    intro i k hk
    have hcnt : (List.range (fuel + 1)).countP (fun d => n.testBit (i + d)) =
        (List.range fuel).countP (fun d => n.testBit (i + 1 + d)) +
          (if n.testBit i = true then 1 else 0) := by
      simp only [List.range_succ_eq_map, List.countP_cons, List.countP_map, Nat.add_zero]
      have h2 : (List.range fuel).countP ((fun d => n.testBit (i + d)) ∘ (· + 1)) =
          (List.range fuel).countP (fun d => n.testBit (i + 1 + d)) := by
        apply List.countP_congr
        intro a _
        simp only [Function.comp]
        simp [Nat.succ_eq_add_one, Nat.add_assoc, Nat.add_comm, Nat.add_left_comm]
      rw [h2]
    rw [hcnt] at hk
    rw [findKthAux, and_one_shl_ne]
    by_cases hb : n.testBit i
    · rw [if_pos hb] at hk ⊢
      by_cases hk0 : k = 0
      · rw [if_pos hk0]
        exact ⟨i, rfl⟩
      · rw [if_neg hk0]
        exact IH (i + 1) (k - 1) (by omega)
    · rw [if_neg hb] at hk ⊢
      exact IH (i + 1) k (by omega)

lemma findKthAux_sound (n : Nat) :
    ∀ fuel i k j, findKthAux n k i fuel = some j →
      n.testBit j = true ∧ i ≤ j ∧ j < i + fuel := by
  intro fuel
  induction fuel with
  | zero =>
    intro i k j h
    cases h
  | succ fuel IH =>
    intro i k j h
    rw [findKthAux, and_one_shl_ne] at h
    by_cases hb : n.testBit i
    · rw [if_pos hb] at h
      by_cases hk0 : k = 0
      · rw [if_pos hk0] at h
        cases h
        exact ⟨hb, le_rfl, by omega⟩
      · rw [if_neg hk0] at h
        obtain ⟨h1, h2, h3⟩ := IH (i + 1) (k - 1) j h
        exact ⟨h1, by omega, by omega⟩
    · rw [if_neg hb] at h
      obtain ⟨h1, h2, h3⟩ := IH (i + 1) k j h
      exact ⟨h1, by omega, by omega⟩

/-! ### Nonemptiness of the legal move set -/

lemma cbs_inprogress_content (b : Board) (g : Nat)
    (h : b.check_board_state g = GameState.InProgress) :
    (((b.x >>> (g * 9)) &&& 0b111111111) ||| ((b.o >>> (g * 9)) &&& 0b111111111))
      ≠ 0b111111111 := by
  intro hfull
  simp only [Board.check_board_state] at h
  rw [hfull] at h
  rcases h1 : anyWinMask ((b.x >>> (g * 9)) &&& 0b111111111) <;>
    rcases h2 : anyWinMask ((b.o >>> (g * 9)) &&& 0b111111111) <;>
      simp [h1, h2] at h

lemma moves_nonzero (b : Board) (hwf : b.wf = true) (hgo : b.game_over = false) :
    ∃ kk, kk < 81 ∧ (b.get_moves).testBit kk = true := by
  obtain ⟨hgx, hgo2, hcell, hsome, hnone⟩ := (wf_iff b).mp hwf
  rcases hl : b.last_move with _ | m
  · refine ⟨0, by omega, ?_⟩
    rw [get_moves_none b hl, testBit_ALL]
    simp
  · have hl9 : m &&& 0b1111 < 9 := hsome m hl
    rcases hcs : b.check_board_state (m &&& 0b1111) with p | _ | _
    · -- decided target (won): free choice among undecided sub-boards
      have hne := cgs_inprogress_ne_full b ((game_over_false_iff b).mp hgo)
      obtain ⟨j, hj, hjb⟩ := exists_clear_bit (b.gx ||| b.go) (or_lt_512 _ _ hgx hgo2) hne
      obtain ⟨c, hc, hcb⟩ := hcell j hj hjb
      refine ⟨9 * j + c, by omega, ?_⟩
      rw [get_moves_decided_testBit b m hl (by rw [hcs]; simp) (9 * j + c)]
      have hdiv : (9 * j + c) / 9 = j := by omega
      rw [hdiv, hcb, hjb]
      simp
      omega
    · -- decided target (drawn): same branch
      have hne := cgs_inprogress_ne_full b ((game_over_false_iff b).mp hgo)
      obtain ⟨j, hj, hjb⟩ := exists_clear_bit (b.gx ||| b.go) (or_lt_512 _ _ hgx hgo2) hne
      obtain ⟨c, hc, hcb⟩ := hcell j hj hjb
      refine ⟨9 * j + c, by omega, ?_⟩
      rw [get_moves_decided_testBit b m hl (by rw [hcs]; simp) (9 * j + c)]
      have hdiv : (9 * j + c) / 9 = j := by omega
      rw [hdiv, hcb, hjb]
      simp
      omega
    · -- in-progress target: an empty cell inside it
      have hfull := cbs_inprogress_content b (m &&& 0b1111) hcs
      obtain ⟨c, hc, hcb⟩ := exists_clear_bit _
        (or_lt_512 _ _ (subBits_lt _ _) (subBits_lt _ _)) hfull
      rw [Nat.testBit_or, subBits_testBit _ _ _ hc, subBits_testBit _ _ _ hc,
        ← Nat.testBit_or] at hcb
      refine ⟨9 * (m &&& 0b1111) + c, by omega, ?_⟩
      rw [get_moves_inprogress_testBit b m hl hcs (9 * (m &&& 0b1111) + c)]
      have harith : (m &&& 0b1111) * 9 + c = 9 * (m &&& 0b1111) + c := by ring
      rw [harith] at hcb
      have hdiv : (9 * (m &&& 0b1111) + c) / 9 = m &&& 0b1111 := by omega
      rw [hdiv, hcb]
      simp
      omega

/-! ### Rollout termination -/

lemma simulateFuel_some (stream : Nat → Nat) :
    ∀ fuel b t, b.wf = true → emptyCount b ≤ fuel →
      ∃ g, simulateFuel stream t fuel b = some g ∧ g ≠ GameState.InProgress := by
  intro fuel
  induction fuel with
  | zero =>
    intro b t hwf hf
    rcases hgo : b.game_over with _ | _
    · have := wf_not_over_empty b hwf hgo
      omega
    · refine ⟨b.check_game_state, ?_, game_over_true_not_inprogress b hgo⟩
      rw [simulateFuel, hgo]
      rfl
  | succ fuel IH =>
    intro b t hwf hf
    rcases hgo : b.game_over with _ | _
    · obtain ⟨kk, hk81, hkbit⟩ := moves_nonzero b hwf hgo
      have hcnt : count_ones b.get_moves =
          (List.range 81).countP (fun d => (b.get_moves).testBit d) :=
        count_ones_eq_countP _ (get_moves_lt b)
      have hnum : 0 < count_ones b.get_moves := by
        rw [hcnt]
        exact List.countP_pos_iff.mpr ⟨kk, List.mem_range.mpr hk81, hkbit⟩
      have hmod : stream t % count_ones b.get_moves < count_ones b.get_moves :=
        Nat.mod_lt _ hnum
      obtain ⟨j, hjfind⟩ := findKthAux_isSome b.get_moves 81 0
        (stream t % count_ones b.get_moves)
        (by
          refine lt_of_lt_of_le hmod (le_of_eq ?_)
          rw [hcnt]
          apply List.countP_congr
          intro a _
          simp)
      obtain ⟨hjbit, _, hj81⟩ := findKthAux_sound b.get_moves 81 0 _ j hjfind
      rw [Nat.zero_add] at hj81
      obtain ⟨_, hjemp⟩ := get_moves_empty b hwf j hjbit
      have hwf2 := wf_play b j hwf hj81
      have hcount := emptyCount_play b j hj81 hjemp
      obtain ⟨g, hgsim, hgne⟩ := IH (b.unchecked_play (Board.move_from_index j)) (t + 1)
        hwf2 (by omega)
      refine ⟨g, ?_, hgne⟩
      have hfind2 : find_kth_high_bit_index b.get_moves
          (stream t % count_ones b.get_moves) = some j := hjfind
      simp only [simulateFuel, hgo, Bool.false_eq_true, if_false]
      rw [if_neg (by omega : ¬count_ones b.get_moves = 0), hfind2]
      exact hgsim
    · refine ⟨b.check_game_state, ?_, game_over_true_not_inprogress b hgo⟩
      rw [simulateFuel, hgo]
      rfl

/-! ### Claim C6 -/

/-- Board with every cell occupied in a drawn pattern (the same winless full
pattern in all 9 sub-boards) but with gx and go still empty, violating the
gx/go consistency invariant.  Constructible because the Board fields are
public. -/
def fullUnmarkedBoard : Board :=
  { x := 355 * ((2 ^ 81 - 1) / 511), o := 156 * ((2 ^ 81 - 1) / 511),
    gx := 0, go := 0, next_player := Player.X, last_move := some 0 }

set_option maxRecDepth 200000 in
/-- C6 counterexample: from fullUnmarkedBoard the game is not over
(check_game_state sees no decided sub-board), yet the rollout cannot resolve
to Won or Draw: the legal move mask is empty, so the Rust code panics in
gen_range (modelled as none) no matter how much fuel is available. -/
theorem simulate_not_total :
    fullUnmarkedBoard.game_over = false ∧
    simulateFuel (fun _ => 0) 0 81 fullUnmarkedBoard = none := by
  constructor
  · decide
  · decide

/-- C6 (amended): every rollout started from a Board satisfying the board
well-formedness invariants (9-bit gx/go; every sub-board not marked decided
still has an empty cell; a recorded last move targets a cell index below 9;
a board with no recorded move is empty) terminates within emptyCount plies —
which is at most 81 — and resolves to Won or Draw, never InProgress, for
every random stream. -/
theorem simulate_terminates (stream : Nat → Nat) (b : Board) (hwf : b.wf = true) :
    emptyCount b ≤ 81 ∧
    ∃ g, simulateFuel stream 0 (emptyCount b) b = some g ∧
      g ≠ GameState.InProgress :=
  ⟨by simpa [emptyCount] using List.countP_le_length _,
   simulateFuel_some stream (emptyCount b) b 0 hwf le_rfl⟩

/-- Board one ply from the end: sub-boards 0..7 are marked drawn and
sub-board 8 holds a winless position with a single empty cell (its cell 8),
targeted by the last move. -/
def nearEndBoard : Board :=
  { x := 99 * 2 ^ 72, o := 156 * 2 ^ 72, gx := 255, go := 255,
    next_player := Player.X, last_move := some 8 }

set_option maxRecDepth 200000 in
/-- C6 witness: the amended theorem applied to nearEndBoard. -/
theorem simulate_terminates_witness :
    emptyCount nearEndBoard ≤ 81 ∧
    ∃ g, simulateFuel (fun _ => 0) 0 (emptyCount nearEndBoard) nearEndBoard = some g ∧
      g ≠ GameState.InProgress :=
  simulate_terminates (fun _ => 0) nearEndBoard (by decide)

/-! ### List getD / set helpers -/

lemma getD_set_self (l : List MCTSNode) (i : Nat) (v : MCTSNode) (h : i < l.length) :
    (l.set i v).getD i default = v := by
  simp [List.getD_eq_getElem?_getD, List.getElem?_set_self, h]

lemma getD_set_ne (l : List MCTSNode) (i j : Nat) (v : MCTSNode) (h : i ≠ j) :
    (l.set i v).getD j default = l.getD j default := by
  simp [List.getD_eq_getElem?_getD, List.getElem?_set_ne h]

lemma getD_append_left (l l2 : List MCTSNode) (j : Nat) (h : j < l.length) :
    (l ++ l2).getD j default = l.getD j default := by
  simp [List.getD_eq_getElem?_getD, List.getElem?_append_left h]

lemma getD_over (l : List MCTSNode) (j : Nat) (h : l.length ≤ j) :
    l.getD j default = default := List.getD_eq_default l default h

/-! ### Backpropagation chain machinery -/

/-- Effect of one backpropagation step on one node. -/
def bump (n : MCTSNode) (dw : ℚ) : MCTSNode :=
  { n with visits := n.visits + 1, wins := n.wins + dw }

/-- Parent links point to strictly smaller indices (true of every arena the
code builds: children are appended after their parent). -/
def ParentsDec (nodes : List MCTSNode) : Prop :=
  ∀ i p, i < nodes.length → (nodes.getD i default).parent = some p → p < i

/-- Node 0 is the unique parentless (root) node. -/
def RootOnly (nodes : List MCTSNode) : Prop :=
  ∀ i, i < nodes.length → ((nodes.getD i default).parent = none ↔ i = 0)

lemma backpropWalk_succ (dw : ℚ) (nodes : List MCTSNode) (id fuel : Nat) :
    backpropWalk dw nodes id (fuel + 1) =
      (match (nodes.getD id default).parent with
       | none => nodes.set id (bump (nodes.getD id default) dw)
       | some p => backpropWalk dw (nodes.set id (bump (nodes.getD id default) dw)) p fuel) :=
  rfl

lemma parentChain_succ (nodes : List MCTSNode) (id fuel : Nat) :
    parentChain nodes id (fuel + 1) =
      (match (nodes.getD id default).parent with
       | none => [id]
       | some p => id :: parentChain nodes p fuel) := rfl

lemma parentChain_congr (n1 n2 : List MCTSNode)
    (h : ∀ j, (n1.getD j default).parent = (n2.getD j default).parent) :
    ∀ fuel id, parentChain n1 id fuel = parentChain n2 id fuel := by
  intro fuel
  induction fuel with
  | zero => intro id; rfl
  | succ fuel IH =>
    intro id
    rw [parentChain_succ, parentChain_succ, h id]
    rcases hp : (n2.getD id default).parent with _ | p
    · rfl
    · show id :: parentChain n1 p fuel = id :: parentChain n2 p fuel
      rw [IH]

lemma parentChain_le (nodes : List MCTSNode) (hdec : ParentsDec nodes) :
    ∀ fuel id j, j ∈ parentChain nodes id fuel → j ≤ id := by
  intro fuel
  induction fuel with
  | zero => intro id j hj; cases hj
  | succ fuel IH =>
    intro id j hj
    rw [parentChain_succ] at hj
    rcases hp : (nodes.getD id default).parent with _ | p <;> rw [hp] at hj
    · have hj2 : j ∈ [id] := hj
      simp at hj2
      omega
    · have hj3 : j ∈ id :: parentChain nodes p fuel := hj
      rcases List.mem_cons.mp hj3 with rfl | hj2
      · exact le_rfl
      · have hid : id < nodes.length := by
          by_contra hcon
          rw [getD_over nodes id (by omega)] at hp
          cases hp
        have hpid : p < id := hdec id p hid hp
        have := IH p j hj2
        omega

lemma parentChain_shape (nodes : List MCTSNode) (hdec : ParentsDec nodes)
    (hroot : RootOnly nodes) :
    ∀ fuel id, id < fuel → id < nodes.length →
      (parentChain nodes id fuel).head? = some id ∧
      (parentChain nodes id fuel).getLast? = some 0 ∧
      (parentChain nodes id fuel).Nodup := by
  intro fuel
  induction fuel with
  | zero => intro id h; omega
  | succ fuel IH =>
    intro id hfuel hid
    rw [parentChain_succ]
    rcases hp : (nodes.getD id default).parent with _ | p
    · have h0 : id = 0 := (hroot id hid).mp hp
      subst h0
      exact ⟨rfl, rfl, List.nodup_singleton 0⟩
    · have hpid : p < id := hdec id p hid hp
      obtain ⟨hh, hl, hn⟩ := IH p (by omega) (by omega)
      refine ⟨rfl, ?_, ?_⟩
      · show (id :: parentChain nodes p fuel).getLast? = some 0
        have hne : parentChain nodes p fuel ≠ [] := by
          intro hcon
          rw [hcon] at hh
          cases hh
        obtain ⟨c, t, hct⟩ := List.exists_cons_of_ne_nil hne
        rw [hct, List.getLast?_cons_cons]
        rw [hct] at hl
        exact hl
      · show (id :: parentChain nodes p fuel).Nodup
        refine List.nodup_cons.mpr ⟨fun hmem => ?_, hn⟩
        have := parentChain_le nodes hdec fuel p id hmem
        omega

lemma backpropWalk_spec (dw : ℚ) :
    ∀ fuel nodes id, ParentsDec nodes → id < nodes.length → id < fuel →
      (∀ j, j ∈ parentChain nodes id fuel →
        (backpropWalk dw nodes id fuel).getD j default = bump (nodes.getD j default) dw) ∧
      (∀ j, j ∉ parentChain nodes id fuel →
        (backpropWalk dw nodes id fuel).getD j default = nodes.getD j default) := by
  intro fuel
  induction fuel with
  | zero => intro nodes id _ _ h; omega
  | succ fuel IH =>
    intro nodes id hdec hid hfuel
    rw [backpropWalk_succ, parentChain_succ]
    rcases hp : (nodes.getD id default).parent with _ | p
    · show (∀ j, j ∈ [id] →
          ((nodes.set id (bump (nodes.getD id default) dw)).getD j default =
            bump (nodes.getD j default) dw)) ∧
        (∀ j, j ∉ [id] →
          ((nodes.set id (bump (nodes.getD id default) dw)).getD j default =
            nodes.getD j default))
      constructor
      · intro j hj
        have hji : j = id := by simpa using hj
        subst hji
        exact getD_set_self nodes j _ hid
      · intro j hj
        have hji : j ≠ id := by simpa using hj
        exact getD_set_ne nodes id j _ (Ne.symm hji)
    · show (∀ j, j ∈ id :: parentChain nodes p fuel →
          ((backpropWalk dw (nodes.set id (bump (nodes.getD id default) dw)) p fuel).getD
              j default = bump (nodes.getD j default) dw)) ∧
        (∀ j, j ∉ id :: parentChain nodes p fuel →
          ((backpropWalk dw (nodes.set id (bump (nodes.getD id default) dw)) p fuel).getD
              j default = nodes.getD j default))
      have hpid : p < id := hdec id p hid hp
      have hpar_eq : ∀ j,
          ((nodes.set id (bump (nodes.getD id default) dw)).getD j default).parent =
            ((nodes.getD j default)).parent := by
        intro j
        by_cases hji : id = j
        · subst hji
          rw [getD_set_self nodes id _ hid]
          rfl
        · rw [getD_set_ne nodes id j _ hji]
      have hdec2 : ParentsDec (nodes.set id (bump (nodes.getD id default) dw)) := by
        intro i q hi hq
        rw [List.length_set] at hi
        rw [hpar_eq i] at hq
        exact hdec i q hi hq
      have hchain_eq :
          parentChain (nodes.set id (bump (nodes.getD id default) dw)) p fuel =
            parentChain nodes p fuel :=
        parentChain_congr _ _ hpar_eq fuel p
      obtain ⟨Hin, Hout⟩ := IH (nodes.set id (bump (nodes.getD id default) dw)) p hdec2
        (by rw [List.length_set]; omega) (by omega)
      rw [hchain_eq] at Hin Hout
      constructor
      · intro j hj
        rcases List.mem_cons.mp hj with rfl | hj2
        · have hnotin : j ∉ parentChain nodes p fuel := fun hmem => by
            have := parentChain_le nodes hdec fuel p j hmem
            omega
          rw [Hout j hnotin, getD_set_self nodes j _ hid]
        · have hjp : j ≤ p := parentChain_le nodes hdec fuel p j hj2
          rw [Hin j hj2, getD_set_ne nodes id j _ (by omega : id ≠ j)]
      · intro j hj
        have hjid : j ≠ id := fun h => hj (h ▸ List.mem_cons_self _ _)
        have hjch : j ∉ parentChain nodes p fuel := fun h => hj (List.mem_cons_of_mem _ h)
        rw [Hout j hjch, getD_set_ne nodes id j _ (Ne.symm hjid)]

/-- Win increment a terminal result earns relative to the root player
(mcts.rs backpropagate: 1 for a root-player win, 1e-8 for a draw, 0 for an
opponent win). -/
def winDelta (player : Player) (res : GameState) : ℚ :=
  match res with
  | GameState.Won w => if player = w then 1 else 0
  | GameState.Draw => epsDraw
  | GameState.InProgress => 0

/-! ### Claim C4 -/

/-- C4: backpropagating one (node, terminal result) pair walks the parent
chain from that node up to the search root (node 0) inclusive; every node on
the chain gains exactly 1 visit, and gains exactly 1 win iff the result is a
win for the player argument — which analyzeLoop instantiates with the
analysis root's next_player — exactly epsDraw = 1e-8 iff the result is a
draw, and 0 otherwise.  Every node off the chain is untouched, and the chain
is duplicate-free, so no node is incremented twice. -/
theorem backpropagate_chain (nodes : List MCTSNode) (id : Nat) (res : GameState)
    (player : Player) (hid : id < nodes.length) (hdec : ParentsDec nodes)
    (hroot : RootOnly nodes) (hres : res ≠ GameState.InProgress) :
    (∀ j, j ∈ parentChain nodes id (id + 1) →
      (backpropagate nodes [(id, res)] player).getD j default =
        bump (nodes.getD j default) (winDelta player res)) ∧
    (∀ j, j ∉ parentChain nodes id (id + 1) →
      (backpropagate nodes [(id, res)] player).getD j default = nodes.getD j default) ∧
    (parentChain nodes id (id + 1)).head? = some id ∧
    (parentChain nodes id (id + 1)).getLast? = some 0 ∧
    (parentChain nodes id (id + 1)).Nodup := by
  have hshape := parentChain_shape nodes hdec hroot (id + 1) id (by omega) hid
  have hbp : backpropagate nodes [(id, res)] player =
      backpropWalk (winDelta player res) nodes id (id + 1) := by
    rcases res with w | _ | _
    · rfl
    · rfl
    · exact absurd rfl hres
  rw [hbp]
  obtain ⟨H1, H2⟩ := backpropWalk_spec (winDelta player res) (id + 1) nodes id hdec hid
    (by omega)
  exact ⟨H1, H2, hshape.1, hshape.2.1, hshape.2.2⟩

/-- Concrete two-node pool for the C4 witness: a root and one child. -/
def bpNodes : List MCTSNode :=
  [{ board := Board.initial, wins := 0, visits := 2, parent := none, children := some [1] },
   { board := Board.initial, wins := 1, visits := 1, parent := some 0, children := none }]

/-- C4 witness: backpropagating a root-player win from the child of the
two-node pool. -/
theorem backpropagate_chain_witness :
    (∀ j, j ∈ parentChain bpNodes 1 2 →
      (backpropagate bpNodes [(1, GameState.Won Player.X)] Player.X).getD j default =
        bump (bpNodes.getD j default) (winDelta Player.X (GameState.Won Player.X))) ∧
    (∀ j, j ∉ parentChain bpNodes 1 2 →
      (backpropagate bpNodes [(1, GameState.Won Player.X)] Player.X).getD j default =
        bpNodes.getD j default) ∧
    (parentChain bpNodes 1 2).head? = some 1 ∧
    (parentChain bpNodes 1 2).getLast? = some 0 ∧
    (parentChain bpNodes 1 2).Nodup :=
  backpropagate_chain bpNodes 1 (GameState.Won Player.X) Player.X (by decide)
    (by
      intro i p hi hp
      simp [bpNodes] at hi
      interval_cases i <;> simp [bpNodes, List.getD] at hp <;> omega)
    (by
      intro i hi
      simp [bpNodes] at hi
      interval_cases i <;> simp [bpNodes, List.getD])
    (by decide)

/-! ### Argmax loop characterization -/

lemma argmaxLoop_spec (v : Nat → ℚ) :
    ∀ (l : List Nat) (st : ℚ × Nat),
      (argmaxLoop v l st = st ∧ ∀ i, i ∈ l → v i ≤ st.1) ∨
      ((argmaxLoop v l st).2 ∈ l ∧
        (argmaxLoop v l st).1 = v (argmaxLoop v l st).2 ∧
        st.1 ≤ (argmaxLoop v l st).1 ∧
        ∀ i, i ∈ l → v i ≤ (argmaxLoop v l st).1) := by
  intro l
  induction l with
  | nil =>
    intro st
    exact Or.inl ⟨rfl, fun i hi => absurd hi (List.not_mem_nil i)⟩
  | cons a l IH =>
    intro st
    rw [argmaxLoop]
    by_cases ha : v a > st.1
    · rw [if_pos ha]
      rcases IH (v a, a) with ⟨heq, hle⟩ | ⟨hmem, heq, hge, hle⟩
      · rw [heq]
        right
        refine ⟨List.mem_cons_self a l, rfl, le_of_lt ha, fun i hi => ?_⟩
        rcases List.mem_cons.mp hi with rfl | hi2
        · exact le_rfl
        · exact hle i hi2
      · right
        refine ⟨List.mem_cons_of_mem a hmem, heq, le_trans (le_of_lt ha) hge,
          fun i hi => ?_⟩
        rcases List.mem_cons.mp hi with rfl | hi2
        · exact hge
        · exact hle i hi2
    · rw [if_neg ha]
      push_neg at ha
      rcases IH st with ⟨heq, hle⟩ | ⟨hmem, heq, hge, hle⟩
      · left
        refine ⟨heq, fun i hi => ?_⟩
        rcases List.mem_cons.mp hi with rfl | hi2
        · exact ha
        · exact hle i hi2
      · right
        refine ⟨List.mem_cons_of_mem a hmem, heq, hge, fun i hi => ?_⟩
        rcases List.mem_cons.mp hi with rfl | hi2
        · exact le_trans ha hge
        · exact hle i hi2

lemma select_best_child_eq (a : MCTSArena) (id : Nat) (cs : List Nat)
    (hch : (a.resolve id).children = some cs) :
    a.select_best_child id = some (if cs.length = 0 then id else
      cs.getD (argmaxLoop (fun i => (a.resolve (cs.getD i 0)).visits)
        (List.range cs.length) (0, 0)).2 0) := by
  rw [MCTSArena.select_best_child, hch]

lemma select_best_child_strict (a : MCTSArena) (id : Nat) (cs : List Nat) (i : Nat)
    (hch : (a.resolve id).children = some cs) (hi : i < cs.length)
    (hnn : ∀ j, j < cs.length → 0 ≤ (a.resolve (cs.getD j 0)).visits)
    (hmax : ∀ j, j < cs.length → j ≠ i →
      (a.resolve (cs.getD j 0)).visits < (a.resolve (cs.getD i 0)).visits) :
    a.select_best_child id = some (cs.getD i 0) := by
  rw [select_best_child_eq a id cs hch, if_neg (by omega : ¬cs.length = 0)]
  rcases argmaxLoop_spec (fun j => (a.resolve (cs.getD j 0)).visits)
      (List.range cs.length) (0, 0) with ⟨heq, hle⟩ | ⟨hmem, heq, _, hle⟩
  · rw [heq]
    have hi0 : i = 0 := by
      by_contra hne
      have h1 := hmax 0 (by omega) (fun h => hne h.symm)
      have h2 := hnn 0 (by omega)
      have h3 := hle i (List.mem_range.mpr hi)
      simp at h1 h2 h3
      linarith
    rw [hi0]
  · have hri : (argmaxLoop (fun j => (a.resolve (cs.getD j 0)).visits)
        (List.range cs.length) (0, 0)).2 = i := by
      by_contra hne
      have hr2 := List.mem_range.mp hmem
      have h1 := hmax _ hr2 hne
      have h3 := hle i (List.mem_range.mpr hi)
      rw [heq] at h3
      simp at h1 h3
      linarith
    rw [hri]

lemma select_best_child_pos (a : MCTSArena) (id : Nat) (cs : List Nat)
    (hch : (a.resolve id).children = some cs) (hne : cs ≠ [])
    (hv : ∀ c, c ∈ cs → 1 ≤ (a.resolve c).visits) :
    ∃ r, a.select_best_child id = some r ∧ r ∈ cs ∧ 0 < (a.resolve r).visits := by
  have hlen : 0 < cs.length := List.length_pos.mpr hne
  have hmem0 : cs.getD 0 0 ∈ cs := by
    rw [List.getD_eq_getElem cs 0 hlen]
    exact List.getElem_mem hlen
  rcases argmaxLoop_spec (fun j => (a.resolve (cs.getD j 0)).visits)
      (List.range cs.length) (0, 0) with ⟨heq, hle⟩ | ⟨hmem, heq, _, _⟩
  · exfalso
    have h1 : (a.resolve (cs.getD 0 0)).visits ≤ 0 := hle 0 (List.mem_range.mpr hlen)
    have h2 := hv _ hmem0
    linarith
  · have hmemr : cs.getD (argmaxLoop (fun j => (a.resolve (cs.getD j 0)).visits)
        (List.range cs.length) (0, 0)).2 0 ∈ cs := by
      have hr2 := List.mem_range.mp hmem
      rw [List.getD_eq_getElem cs 0 hr2]
      exact List.getElem_mem hr2
    refine ⟨_, ?_, hmemr, ?_⟩
    · rw [select_best_child_eq a id cs hch, if_neg (by omega : ¬cs.length = 0)]
    · have := hv _ hmemr
      linarith

/-! ### Claim C5 -/

/-- C5: after the iteration budget, the best move is the direct child of the
analyzed node with the strictly highest visit count: whenever one child's
visit count strictly exceeds every sibling's, select_best_child returns
exactly that child (the strict > comparison never re-selects a stale index),
and the confidence analyze reports is that child's wins/visits expressed as
a percentage. -/
theorem best_child_strict_max :
    (∀ (a : MCTSArena) (id : Nat) (cs : List Nat) (i : Nat),
      (a.resolve id).children = some cs → i < cs.length →
      (∀ j, j < cs.length → 0 ≤ (a.resolve (cs.getD j 0)).visits) →
      (∀ j, j < cs.length → j ≠ i →
        (a.resolve (cs.getD j 0)).visits < (a.resolve (cs.getD i 0)).visits) →
      a.select_best_child id = some (cs.getD i 0)) ∧
    (∀ (a : MCTSArena) (score : MCTSNode → MCTSNode → ℚ) (oracle : Nat → Nat → Nat)
      (id n_iters : Nat) (a2 : MCTSArena) (conf : ℚ) (best : Nat),
      a.analyze score oracle id n_iters = some (a2, conf, best) →
      a2.select_best_child id = some best ∧
      conf = (a2.resolve best).wins / (a2.resolve best).visits * 100) := by
  refine ⟨select_best_child_strict, ?_⟩
  intro a score oracle id n_iters a2 conf best h
  rw [MCTSArena.analyze] at h
  rcases hal : analyzeLoop score oracle id a [] 0 n_iters with _ | ⟨a3, r3, c3⟩
  · rw [hal] at h
    cases h
  · rw [hal] at h
    have h2 : (match a3.select_best_child id with
        | none => none
        | some best =>
          some (a3, (a3.resolve best).wins / (a3.resolve best).visits * 100, best)) =
        some (a2, conf, best) := h
    rcases hsb : a3.select_best_child id with _ | bc
    · rw [hsb] at h2
      cases h2
    · rw [hsb] at h2
      simp only [Option.some.injEq, Prod.mk.injEq] at h2
      obtain ⟨rfl, rfl, rfl⟩ := h2
      exact ⟨hsb, rfl⟩

/-- Concrete arena for the C5 witness: a root with two visited children,
the first strictly more visited. -/
def wArena : MCTSArena :=
  ⟨[{ board := Board.initial, wins := 0, visits := 2, parent := none, children := some [1, 2] },
    { board := Board.initial, wins := 2, visits := 5, parent := some 0, children := none },
    { board := Board.initial, wins := 1, visits := 3, parent := some 0, children := none }]⟩

/-- C5 witness: on wArena the strict-max child (node 1, 5 visits against 3)
is selected, and an analyze call with a zero budget on the already-expanded
root reports confidence 2/5 * 100 = 40 for it. -/
theorem best_child_strict_max_witness :
    wArena.select_best_child 0 = some (([1, 2] : List Nat).getD 0 0) ∧
    (wArena.select_best_child 0 = some 1 ∧
      (wArena.resolve 1).wins / (wArena.resolve 1).visits * 100 = 40) := by
  have hrun : wArena.analyze (fun _ _ => 0) (fun _ _ => 0) 0 0 =
      some (wArena, (wArena.resolve 1).wins / (wArena.resolve 1).visits * 100, 1) := rfl
  have h2 := best_child_strict_max.2 wArena (fun _ _ => 0) (fun _ _ => 0) 0 0 wArena
    ((wArena.resolve 1).wins / (wArena.resolve 1).visits * 100) 1 hrun
  refine ⟨best_child_strict_max.1 wArena 0 [1, 2] 0 (by decide) (by decide) (by decide)
    (by decide), h2.1, ?_⟩
  have hw : (wArena.resolve 1).wins = 2 := rfl
  have hv : (wArena.resolve 1).visits = 5 := rfl
  rw [hw, hv]
  norm_num

/-! ### Claim C8 -/

/-- C8 counterexample: analyze with iterations = 0 leaves the fresh pool
untouched (no expansion), but selecting a best child from the still
childless root is not defined behavior: select_best_child hits the expect
panic on children = None (modelled as none) and the whole analyze call
aborts instead of returning a value. -/
theorem analyze_zero_iters_panics :
    analyzeLoop (fun _ _ => 0) (fun _ _ => 0) 0 (MCTSArena.fromBoard Board.initial) [] 0 0 =
      some (MCTSArena.fromBoard Board.initial, [], 0) ∧
    (MCTSArena.fromBoard Board.initial).select_best_child 0 = none ∧
    (MCTSArena.fromBoard Board.initial).analyze (fun _ _ => 0) (fun _ _ => 0) 0 0 = none :=
  ⟨rfl, rfl, rfl⟩

/-- C8 (amended): analyze with a zero iteration budget performs no expansion
— the iteration loop returns the pool (and the carried results vector)
unchanged, so the pool gains no nodes and no children list is attached — and
selecting a best child from a node with no children list is the expect panic
(modelled as none), not a defined selection. -/
theorem analyze_zero_iters (a : MCTSArena) (score : MCTSNode → MCTSNode → ℚ)
    (oracle : Nat → Nat → Nat) (id : Nat) (results : List (Nat × GameState)) (calls : Nat) :
    analyzeLoop score oracle id a results calls 0 = some (a, results, calls) ∧
    (∀ n, (a.resolve n).children = none → a.select_best_child n = none) := by
  refine ⟨rfl, fun n hn => ?_⟩
  rw [MCTSArena.select_best_child, hn]

/-- C8 witness: the amended statement applied to the fresh one-node pool. -/
theorem analyze_zero_iters_witness :
    analyzeLoop (fun _ _ => 0) (fun _ _ => 0) 5 (MCTSArena.fromBoard Board.initial) [] 3 0 =
      some (MCTSArena.fromBoard Board.initial, [], 3) ∧
    (MCTSArena.fromBoard Board.initial).select_best_child 0 = none :=
  ⟨(analyze_zero_iters (MCTSArena.fromBoard Board.initial) (fun _ _ => 0) (fun _ _ => 0)
      5 [] 3).1,
   (analyze_zero_iters (MCTSArena.fromBoard Board.initial) (fun _ _ => 0) (fun _ _ => 0)
      5 [] 3).2 0 rfl⟩

/-! ### Structural effects of backpropagation -/

lemma set_bump_getD (nodes : List MCTSNode) (id : Nat) (dw : ℚ) (j : Nat) :
    ((nodes.set id (bump (nodes.getD id default) dw)).getD j default) =
      (if j = id ∧ id < nodes.length then bump (nodes.getD j default) dw
       else nodes.getD j default) := by
  by_cases hj : j = id
  · subst hj
    by_cases hl : j < nodes.length
    · rw [getD_set_self nodes j _ hl, if_pos ⟨rfl, hl⟩]
    · rw [List.set_eq_of_length_le (by omega), if_neg (by omega)]
  · rw [getD_set_ne nodes id j _ (Ne.symm hj), if_neg (by tauto)]

lemma backpropWalk_length (dw : ℚ) :
    ∀ fuel nodes id, (backpropWalk dw nodes id fuel).length = nodes.length := by
  intro fuel
  induction fuel with
  | zero => intro nodes id; rfl
  | succ fuel IH =>
    intro nodes id
    rw [backpropWalk_succ]
    rcases hp : (nodes.getD id default).parent with _ | p
    · exact List.length_set nodes id _
    · rw [IH, List.length_set]

lemma backpropWalk_fields (dw : ℚ) :
    ∀ fuel nodes id j,
      (((backpropWalk dw nodes id fuel).getD j default).children =
        ((nodes.getD j default)).children) ∧
      (((backpropWalk dw nodes id fuel).getD j default).parent =
        ((nodes.getD j default)).parent) ∧
      (((backpropWalk dw nodes id fuel).getD j default).board =
        ((nodes.getD j default)).board) := by
  intro fuel
  induction fuel with
  | zero => intro nodes id j; exact ⟨rfl, rfl, rfl⟩
  | succ fuel IH =>
    intro nodes id j
    rw [backpropWalk_succ]
    have hstep : ∀ k, (((nodes.set id (bump (nodes.getD id default) dw)).getD k default).children
          = (nodes.getD k default).children) ∧
        (((nodes.set id (bump (nodes.getD id default) dw)).getD k default).parent
          = (nodes.getD k default).parent) ∧
        (((nodes.set id (bump (nodes.getD id default) dw)).getD k default).board
          = (nodes.getD k default).board) := by
      intro k
      rw [set_bump_getD]
      by_cases hk : k = id ∧ id < nodes.length
      · rw [if_pos hk]
        exact ⟨rfl, rfl, rfl⟩
      · rw [if_neg hk]
        exact ⟨rfl, rfl, rfl⟩
    rcases hp : (nodes.getD id default).parent with _ | p
    · exact hstep j
    · obtain ⟨h1, h2, h3⟩ := IH (nodes.set id (bump (nodes.getD id default) dw)) p j
      obtain ⟨g1, g2, g3⟩ := hstep j
      exact ⟨h1.trans g1, h2.trans g2, h3.trans g3⟩

lemma backpropWalk_visits_mono (dw : ℚ) :
    ∀ fuel nodes id j,
      (nodes.getD j default).visits ≤
        ((backpropWalk dw nodes id fuel).getD j default).visits := by
  intro fuel
  induction fuel with
  | zero => intro nodes id j; exact le_rfl
  | succ fuel IH =>
    intro nodes id j
    rw [backpropWalk_succ]
    have hstep : ∀ k, (nodes.getD k default).visits ≤
        ((nodes.set id (bump (nodes.getD id default) dw)).getD k default).visits := by
      intro k
      rw [set_bump_getD]
      by_cases hk : k = id ∧ id < nodes.length
      · rw [if_pos hk]
        obtain ⟨rfl, _⟩ := hk
        show (nodes.getD k default).visits ≤ (nodes.getD k default).visits + 1
        linarith
      · rw [if_neg hk]
    rcases hp : (nodes.getD id default).parent with _ | p
    · exact hstep j
    · exact le_trans (hstep j)
        (IH (nodes.set id (bump (nodes.getD id default) dw)) p j)

lemma backpropWalk_start (dw : ℚ) (fuel : Nat) (nodes : List MCTSNode) (id : Nat)
    (hid : id < nodes.length) :
    (nodes.getD id default).visits + 1 ≤
      ((backpropWalk dw nodes id (fuel + 1)).getD id default).visits := by
  rw [backpropWalk_succ]
  have hset : ((nodes.set id (bump (nodes.getD id default) dw)).getD id default).visits =
      (nodes.getD id default).visits + 1 := by
    rw [set_bump_getD, if_pos ⟨rfl, hid⟩]
    rfl
  rcases hp : (nodes.getD id default).parent with _ | p
  · rw [hset]
  · calc (nodes.getD id default).visits + 1
        = ((nodes.set id (bump (nodes.getD id default) dw)).getD id default).visits :=
          hset.symm
      _ ≤ _ := backpropWalk_visits_mono dw fuel _ p id

lemma bpStep_length (player : Player) (ns : List MCTSNode) (pr : Nat × GameState) :
    (bpStep player ns pr).length = ns.length := by
  rcases pr with ⟨c, g⟩
  rcases g with w | _ | _ <;> simp [bpStep, backpropWalk_length]

lemma bpStep_fields (player : Player) (ns : List MCTSNode) (pr : Nat × GameState) (j : Nat) :
    (((bpStep player ns pr).getD j default).children = ((ns.getD j default)).children) ∧
    (((bpStep player ns pr).getD j default).parent = ((ns.getD j default)).parent) ∧
    (((bpStep player ns pr).getD j default).board = ((ns.getD j default)).board) := by
  rcases pr with ⟨c, g⟩
  rcases g with w | _ | _
  · exact backpropWalk_fields _ _ ns c j
  · exact backpropWalk_fields _ _ ns c j
  · exact ⟨rfl, rfl, rfl⟩

lemma bpStep_visits_mono (player : Player) (ns : List MCTSNode) (pr : Nat × GameState)
    (j : Nat) :
    (ns.getD j default).visits ≤ ((bpStep player ns pr).getD j default).visits := by
  rcases pr with ⟨c, g⟩
  rcases g with w | _ | _
  · exact backpropWalk_visits_mono _ _ ns c j
  · exact backpropWalk_visits_mono _ _ ns c j
  · exact le_rfl

lemma bpStep_start (player : Player) (ns : List MCTSNode) (c : Nat) (g : GameState)
    (hg : g ≠ GameState.InProgress) (hc : c < ns.length) :
    (ns.getD c default).visits + 1 ≤ ((bpStep player ns (c, g)).getD c default).visits := by
  rcases g with w | _ | _
  · exact backpropWalk_start _ c ns c hc
  · exact backpropWalk_start _ c ns c hc
  · exact absurd rfl hg

lemma backpropagate_length (player : Player) :
    ∀ results nodes, (backpropagate nodes results player).length = nodes.length := by
  intro results
  induction results with
  | nil => intro nodes; rfl
  | cons pr rest IH =>
    intro nodes
    show (backpropagate (bpStep player nodes pr) rest player).length = nodes.length
    rw [IH, bpStep_length]

lemma backpropagate_fields (player : Player) :
    ∀ results nodes j,
      (((backpropagate nodes results player).getD j default).children =
        ((nodes.getD j default)).children) ∧
      (((backpropagate nodes results player).getD j default).parent =
        ((nodes.getD j default)).parent) ∧
      (((backpropagate nodes results player).getD j default).board =
        ((nodes.getD j default)).board) := by
  intro results
  induction results with
  | nil => intro nodes j; exact ⟨rfl, rfl, rfl⟩
  | cons pr rest IH =>
    intro nodes j
    obtain ⟨h1, h2, h3⟩ := IH (bpStep player nodes pr) j
    obtain ⟨g1, g2, g3⟩ := bpStep_fields player nodes pr j
    exact ⟨h1.trans g1, h2.trans g2, h3.trans g3⟩

lemma backpropagate_visits_mono (player : Player) :
    ∀ results nodes j,
      (nodes.getD j default).visits ≤
        ((backpropagate nodes results player).getD j default).visits := by
  intro results
  induction results with
  | nil => intro nodes j; exact le_rfl
  | cons pr rest IH =>
    intro nodes j
    exact le_trans (bpStep_visits_mono player nodes pr j) (IH (bpStep player nodes pr) j)

lemma backpropagate_start (player : Player) :
    ∀ results nodes c g, (c, g) ∈ results → g ≠ GameState.InProgress →
      c < nodes.length →
      (nodes.getD c default).visits + 1 ≤
        ((backpropagate nodes results player).getD c default).visits := by
  intro results
  induction results with
  | nil => intro nodes c g h; cases h
  | cons pr rest IH =>
    intro nodes c g hmem hg hc
    rcases List.mem_cons.mp hmem with rfl | hmem2
    · calc (nodes.getD c default).visits + 1
          ≤ ((bpStep player nodes (c, g)).getD c default).visits :=
            bpStep_start player nodes c g hg hc
        _ ≤ _ := backpropagate_visits_mono player rest (bpStep player nodes (c, g)) c
    · calc (nodes.getD c default).visits + 1
          ≤ ((bpStep player nodes pr).getD c default).visits + 1 := by
            have := bpStep_visits_mono player nodes pr c
            linarith
        _ ≤ _ := IH (bpStep player nodes pr) c g hmem2 hg
            (by rw [bpStep_length]; exact hc)

/-! ### Structural effects of expansion -/

lemma shiftand_one (n i : Nat) : (((n >>> i) &&& 1) == 1) = n.testBit i := by
  rw [Nat.testBit_to_div_mod, Nat.shiftRight_eq_div_pow, Nat.and_one_is_mod]
  rcases Nat.mod_two_eq_zero_or_one (n / 2 ^ i) with h | h <;> rw [h] <;> simp

lemma getD_append_at (l : List MCTSNode) (v : MCTSNode) :
    (l ++ [v]).getD l.length default = v := by
  simp [List.getD_eq_getElem?_getD, List.getElem?_append_right (le_refl l.length)]

lemma expandFold_spec (b : Board) (moves : Nat) (id : Nat) :
    ∀ (l : List Nat) (ns : List MCTSNode) (cs : List Nat),
      (∃ t, (l.foldl (expandStep b moves id) (ns, cs)).1 = ns ++ t) ∧
      (∃ u, (l.foldl (expandStep b moves id) (ns, cs)).2 = cs ++ u) ∧
      (∀ c, c ∈ (l.foldl (expandStep b moves id) (ns, cs)).2 → c ∈ cs ∨
        (ns.length ≤ c ∧ c < (l.foldl (expandStep b moves id) (ns, cs)).1.length)) ∧
      (∀ j, ns.length ≤ j → j < (l.foldl (expandStep b moves id) (ns, cs)).1.length →
        j ∈ (l.foldl (expandStep b moves id) (ns, cs)).2 ∧
        ∃ i, i ∈ l ∧ moves.testBit i = true ∧
          (l.foldl (expandStep b moves id) (ns, cs)).1.getD j default = mkChild b id i) ∧
      ((∃ i, i ∈ l ∧ moves.testBit i = true) →
        cs.length < (l.foldl (expandStep b moves id) (ns, cs)).2.length) := by
  intro l
  induction l with
  | nil =>
    intro ns cs
    simp only [List.foldl_nil]
    refine ⟨⟨[], (List.append_nil ns).symm⟩, ⟨[], (List.append_nil cs).symm⟩, ?_, ?_, ?_⟩
    · intro c hc
      exact Or.inl hc
    · intro j h1 h2
      exact absurd h2 (by omega)
    · rintro ⟨i, hi, _⟩
      cases hi
  | cons i0 l IH =>
    intro ns cs
    simp only [List.foldl_cons]
    rcases hbit : ((moves >>> i0) &&& 1) == 1 with _ | _
    · have hstep : expandStep b moves id (ns, cs) i0 = (ns, cs) := by
        rw [expandStep, hbit]
        rfl
      rw [hstep]
      obtain ⟨hA, hAc, hB, hD, hC⟩ := IH ns cs
      refine ⟨hA, hAc, hB, ?_, ?_⟩
      · intro j h1 h2
        obtain ⟨hj, i, hi, hib, hnode⟩ := hD j h1 h2
        exact ⟨hj, i, List.mem_cons_of_mem i0 hi, hib, hnode⟩
      · rintro ⟨i, hi, hib⟩
        rcases List.mem_cons.mp hi with rfl | hi2
        · rw [← shiftand_one, hbit] at hib
          cases hib
        · exact hC ⟨i, hi2, hib⟩
    · have hstep : expandStep b moves id (ns, cs) i0 =
          (ns ++ [mkChild b id i0], cs ++ [ns.length]) := by
        rw [expandStep, hbit]
        rfl
      rw [hstep]
      obtain ⟨⟨t, hA⟩, ⟨u, hAc⟩, hB, hD, hC⟩ := IH (ns ++ [mkChild b id i0]) (cs ++ [ns.length])
      have hlen1 : ns.length <
          (l.foldl (expandStep b moves id) (ns ++ [mkChild b id i0], cs ++ [ns.length])).1.length := by
        rw [hA, List.length_append, List.length_append]
        simp only [List.length_cons, List.length_nil]
        omega
      refine ⟨⟨[mkChild b id i0] ++ t, by rw [hA, List.append_assoc]⟩,
        ⟨[ns.length] ++ u, by rw [hAc, List.append_assoc]⟩, ?_, ?_, ?_⟩
      · intro c hc
        rcases hB c hc with hc2 | ⟨hc3, hc4⟩
        · rcases List.mem_append.mp hc2 with hc5 | hc5
          · exact Or.inl hc5
          · have : c = ns.length := by simpa using hc5
            subst this
            exact Or.inr ⟨le_rfl, hlen1⟩
        · rw [List.length_append] at hc3
          exact Or.inr ⟨by simp at hc3; omega, hc4⟩
      · intro j h1 h2
        by_cases hj : ns.length + 1 ≤ j
        · obtain ⟨hjm, i, hi, hib, hnode⟩ := hD j (by rw [List.length_append]; simpa) h2
          exact ⟨hjm, i, List.mem_cons_of_mem i0 hi, hib, hnode⟩
        · have hj2 : j = ns.length := by omega
          subst hj2
          constructor
          · rw [hAc]
            exact List.mem_append.mpr (Or.inl (List.mem_append.mpr (Or.inr (by simp))))
          · refine ⟨i0, List.mem_cons_self i0 l, by rw [← shiftand_one, hbit], ?_⟩
            rw [hA, getD_append_left _ _ _ (by rw [List.length_append]; simp),
              getD_append_at]
      · intro _
        rw [hAc, List.length_append, List.length_append]
        simp only [List.length_cons, List.length_nil]
        omega

lemma expand_eq (a : MCTSArena) (id : Nat) :
    a.expand id = ⟨((List.range 81).foldl (expandStep (a.resolve id).board
        ((a.resolve id).board.get_moves) id) (a.nodes, ([] : List Nat))).1.set id
      { ((List.range 81).foldl (expandStep (a.resolve id).board
          ((a.resolve id).board.get_moves) id) (a.nodes, ([] : List Nat))).1.getD id default
        with children := some ((List.range 81).foldl (expandStep (a.resolve id).board
          ((a.resolve id).board.get_moves) id) (a.nodes, ([] : List Nat))).2 }⟩ := rfl

lemma expand_spec (a : MCTSArena) (e : Nat) (he : e < a.nodes.length) :
    a.nodes.length ≤ (a.expand e).nodes.length ∧
    (∀ j, j < a.nodes.length → j ≠ e → (a.expand e).resolve j = a.resolve j) ∧
    ((a.expand e).resolve e).board = (a.resolve e).board ∧
    ((a.expand e).resolve e).visits = (a.resolve e).visits ∧
    ((a.expand e).resolve e).parent = (a.resolve e).parent ∧
    (∃ cs, ((a.expand e).resolve e).children = some cs ∧
      (∀ c, c ∈ cs → a.nodes.length ≤ c ∧ c < (a.expand e).nodes.length ∧
        ∃ i, i < 81 ∧ (((a.resolve e).board.get_moves).testBit i = true) ∧
          (a.expand e).resolve c = mkChild (a.resolve e).board e i) ∧
      ((∃ i, i < 81 ∧ ((a.resolve e).board.get_moves).testBit i = true) → cs ≠ []) ∧
      (∀ j, a.nodes.length ≤ j → j < (a.expand e).nodes.length → j ∈ cs ∧
        ∃ i, i < 81 ∧ (((a.resolve e).board.get_moves).testBit i = true) ∧
          (a.expand e).resolve j = mkChild (a.resolve e).board e i)) := by
  obtain ⟨⟨t, hA⟩, ⟨u, hAc⟩, hB, hD, hC⟩ := expandFold_spec (a.resolve e).board
    ((a.resolve e).board.get_moves) e (List.range 81) a.nodes []
  rw [List.nil_append] at hAc
  have hfold_len : a.nodes.length ≤
      ((List.range 81).foldl (expandStep (a.resolve e).board
        ((a.resolve e).board.get_moves) e) (a.nodes, ([] : List Nat))).1.length := by
    rw [hA, List.length_append]
    omega
  have he2 : e < ((List.range 81).foldl (expandStep (a.resolve e).board
      ((a.resolve e).board.get_moves) e) (a.nodes, ([] : List Nat))).1.length := by omega
  have hgetD_e : ((List.range 81).foldl (expandStep (a.resolve e).board
      ((a.resolve e).board.get_moves) e) (a.nodes, ([] : List Nat))).1.getD e default =
      a.nodes.getD e default := by
    rw [hA, getD_append_left _ _ _ he]
  rw [expand_eq]
  simp only [MCTSArena.resolve] at hA hAc hB hD hC hfold_len he2 hgetD_e ⊢
  refine ⟨?_, ?_, ?_, ?_, ?_, ?_⟩
  · rw [List.length_set]
    exact hfold_len
  · intro j hj hje
    rw [getD_set_ne _ _ _ _ (Ne.symm hje), hA, getD_append_left _ _ _ hj]
  · rw [getD_set_self _ _ _ he2, hgetD_e]
  · rw [getD_set_self _ _ _ he2, hgetD_e]
  · rw [getD_set_self _ _ _ he2, hgetD_e]
  · refine ⟨((List.range 81).foldl (expandStep ((a.nodes.getD e default)).board
      (((a.nodes.getD e default)).board.get_moves) e) (a.nodes, ([] : List Nat))).2,
      ?_, ?_, ?_, ?_⟩
    · rw [getD_set_self _ _ _ he2]
    · intro c hc
      rcases hB c hc with hc2 | ⟨hc3, hc4⟩
      · cases hc2
      · refine ⟨hc3, by rw [List.length_set]; exact hc4, ?_⟩
        obtain ⟨_, i, hi, hib, hnode⟩ := hD c hc3 hc4
        refine ⟨i, List.mem_range.mp hi, hib, ?_⟩
        rw [getD_set_ne _ _ _ _ (by omega : e ≠ c)]
        exact hnode
    · rintro ⟨i, hi, hib⟩
      intro hnil
      have := hC ⟨i, List.mem_range.mpr hi, hib⟩
      rw [hnil] at this
      simp at this
    · intro j hj1 hj2
      rw [List.length_set] at hj2
      obtain ⟨hjm, i, hi, hib, hnode⟩ := hD j hj1 hj2
      refine ⟨hjm, i, List.mem_range.mp hi, hib, ?_⟩
      rw [getD_set_ne _ _ _ _ (by omega : e ≠ j)]
      exact hnode

/-! ### Selection and simulation result characterization -/

/-- Children lists point inside the pool. -/
def ChildrenInRange (a : MCTSArena) : Prop :=
  ∀ i, i < a.nodes.length → ∀ cs, (a.resolve i).children = some cs →
    ∀ c, c ∈ cs → c < a.nodes.length

lemma getD_mem_nat (cs : List Nat) (r : Nat) (h : r < cs.length) : cs.getD r 0 ∈ cs := by
  rw [List.getD_eq_getElem cs 0 h]
  exact List.getElem_mem h

lemma selectLoop_succ (a : MCTSArena) (score : MCTSNode → MCTSNode → ℚ)
    (fuel id : Nat) :
    selectLoop a score (fuel + 1) id =
      (if (a.resolve id).board.game_over then some (BestNode.NodeId id)
       else match (a.resolve id).children with
         | none => some (BestNode.Expand id)
         | some children =>
             selectLoop a score fuel (if children.length = 0 then id else
               children.getD (argmaxLoop (fun i => score (a.resolve id)
                 (a.resolve (children.getD i 0))) (List.range children.length) (0, 0)).2 0)) :=
  rfl

lemma selectLoop_spec (a : MCTSArena) (score : MCTSNode → MCTSNode → ℚ)
    (hcr : ChildrenInRange a) (hlen : 0 < a.nodes.length) :
    ∀ fuel id, id < a.nodes.length →
      (∀ e, selectLoop a score fuel id = some (BestNode.Expand e) →
        e < a.nodes.length ∧ (a.resolve e).children = none ∧
          (a.resolve e).board.game_over = false) ∧
      (∀ t, selectLoop a score fuel id = some (BestNode.NodeId t) →
        t < a.nodes.length ∧ (a.resolve t).board.game_over = true) := by
  intro fuel
  induction fuel with
  | zero =>
    intro id hid
    constructor
    · intro e h
      cases h
    · intro t h
      cases h
  | succ fuel IH =>
    intro id hid
    rw [selectLoop_succ]
    by_cases hgo : (a.resolve id).board.game_over = true
    · rw [if_pos hgo]
      constructor
      · intro e h
        simp at h
      · intro t h
        simp at h
        subst h
        exact ⟨hid, hgo⟩
    · rw [if_neg hgo]
      rcases hch : (a.resolve id).children with _ | cs
      · constructor
        · intro e h
          simp at h
          subst h
          exact ⟨hid, hch, by simpa using hgo⟩
        · intro t h
          simp at h
      · have hid2lt : (if cs.length = 0 then id else
            cs.getD (argmaxLoop (fun i => score (a.resolve id) (a.resolve (cs.getD i 0)))
              (List.range cs.length) (0, 0)).2 0) < a.nodes.length := by
          by_cases hcs : cs.length = 0
          · rw [if_pos hcs]
            exact hid
          · rw [if_neg hcs]
            by_cases hin : (argmaxLoop (fun i => score (a.resolve id)
                (a.resolve (cs.getD i 0))) (List.range cs.length) (0, 0)).2 < cs.length
            · exact hcr id hid cs hch _ (getD_mem_nat cs _ hin)
            · rw [List.getD_eq_default _ _ (by omega)]
              exact hlen
        exact IH _ hid2lt

lemma simulateFuel_zero_eq (stream : Nat → Nat) (t : Nat) (b : Board) :
    simulateFuel stream t 0 b =
      (if b.game_over then some b.check_game_state else none) := rfl

lemma simulateFuel_succ_eq (stream : Nat → Nat) (t fuel : Nat) (b : Board) :
    simulateFuel stream t (fuel + 1) b =
      (if b.game_over then some b.check_game_state
       else if count_ones b.get_moves = 0 then none
       else match find_kth_high_bit_index b.get_moves
           (stream t % count_ones b.get_moves) with
         | none => none
         | some i =>
             simulateFuel stream (t + 1) fuel
               (b.unchecked_play (Board.move_from_index i))) := rfl

lemma simulateFuel_ne (stream : Nat → Nat) :
    ∀ fuel t b g, simulateFuel stream t fuel b = some g →
      g ≠ GameState.InProgress := by
  intro fuel
  induction fuel with
  | zero =>
    intro t b g h
    rw [simulateFuel_zero_eq] at h
    by_cases hgo : b.game_over = true
    · rw [if_pos hgo] at h
      cases h
      exact game_over_true_not_inprogress b hgo
    · rw [if_neg hgo] at h
      cases h
  | succ fuel IH =>
    intro t b g h
    rw [simulateFuel_succ_eq] at h
    by_cases hgo : b.game_over = true
    · rw [if_pos hgo] at h
      cases h
      exact game_over_true_not_inprogress b hgo
    · rw [if_neg hgo] at h
      by_cases hnum : count_ones b.get_moves = 0
      · rw [if_pos hnum] at h
        cases h
      · rw [if_neg hnum] at h
        rcases hf : find_kth_high_bit_index b.get_moves
            (stream t % count_ones b.get_moves) with _ | i
        · rw [hf] at h
          cases h
        · rw [hf] at h
          have h2 : simulateFuel stream (t + 1) fuel
              (b.unchecked_play (Board.move_from_index i)) = some g := h
          exact IH (t + 1) _ g h2

lemma collectSims_cons (oracle : Nat → Nat → Nat) (a : MCTSArena) (c : Nat)
    (rest : List Nat) (calls : Nat) :
    collectSims oracle a (c :: rest) calls =
      (match simulateFuel (oracle calls) 0 81 (a.resolve c).board with
       | none => none
       | some g =>
         match collectSims oracle a rest (calls + 1) with
         | none => none
         | some pr => some ((c, g) :: pr.1, pr.2)) := rfl

lemma collectSims_mem (oracle : Nat → Nat → Nat) (a : MCTSArena) :
    ∀ cs calls rs calls2, collectSims oracle a cs calls = some (rs, calls2) →
      ∀ c, c ∈ cs → ∃ g, (c, g) ∈ rs ∧ g ≠ GameState.InProgress := by
  intro cs
  induction cs with
  | nil =>
    intro calls rs calls2 h c hc
    cases hc
  | cons c0 rest IH =>
    intro calls rs calls2 h c hc
    rw [collectSims_cons] at h
    rcases hsim : simulateFuel (oracle calls) 0 81 (a.resolve c0).board with _ | g
    · rw [hsim] at h
      cases h
    · rw [hsim] at h
      rcases hrec : collectSims oracle a rest (calls + 1) with _ | pr
      · have h2 : (none : Option (List (Nat × GameState) × Nat)) = some (rs, calls2) := by
          rw [hrec] at h
          exact h
        cases h2
      · have h2 : some ((c0, g) :: pr.1, pr.2) = some (rs, calls2) := by
          rw [hrec] at h
          exact h
        simp only [Option.some.injEq, Prod.mk.injEq] at h2
        obtain ⟨hrs, _⟩ := h2
        rcases List.mem_cons.mp hc with rfl | hc2
        · exact ⟨g, by rw [← hrs]; exact List.mem_cons_self _ _,
            simulateFuel_ne (oracle calls) 81 0 _ g hsim⟩
        · obtain ⟨g2, hg2, hg2n⟩ := IH (calls + 1) pr.1 pr.2 (by rw [hrec]) c hc2
          exact ⟨g2, by rw [← hrs]; exact List.mem_cons_of_mem _ hg2, hg2n⟩

/-! ### The analyze iteration preserves the visit invariant -/

lemma analyzeLoop_succ (score : MCTSNode → MCTSNode → ℚ) (oracle : Nat → Nat → Nat)
    (id : Nat) (a : MCTSArena) (results : List (Nat × GameState)) (calls n : Nat) :
    analyzeLoop score oracle id a results calls (n + 1) =
      (match a.select score id with
       | none => none
       | some (BestNode.Expand e) =>
         match collectSims oracle (a.expand e)
             (((a.expand e).resolve e).children.getD []) calls with
         | none => none
         | some (results2, calls2) =>
           analyzeLoop score oracle id
             ⟨backpropagate (a.expand e).nodes results2
               (((a.expand e).resolve id).board.next_player)⟩
             results2 calls2 n
       | some (BestNode.NodeId t) =>
         analyzeLoop score oracle id
           ⟨backpropagate a.nodes (results ++ [(t, (a.resolve t).board.check_game_state)])
             ((a.resolve id).board.next_player)⟩
           (results ++ [(t, (a.resolve t).board.check_game_state)]) calls n) := rfl

/-- Backpropagation alone never disturbs the structural invariants: children
lists and boards are untouched and visit counters only grow. -/
lemma backprop_inv (a : MCTSArena) (results : List (Nat × GameState)) (player : Player)
    (hcr : ChildrenInRange a) (hci : ChildInv a) (hbw : BoardsWF a) :
    ChildrenInRange ⟨backpropagate a.nodes results player⟩ ∧
    ChildInv ⟨backpropagate a.nodes results player⟩ ∧
    BoardsWF ⟨backpropagate a.nodes results player⟩ ∧
    a.nodes.length ≤ (backpropagate a.nodes results player).length := by
  refine ⟨?_, ?_, ?_, le_of_eq (backpropagate_length player results a.nodes).symm⟩
  · intro j hj cs hcs c hc
    have hj2 : j < a.nodes.length := by
      rw [← backpropagate_length player results a.nodes]
      exact hj
    have hcs2 : ((a.nodes.getD j default)).children = some cs := by
      rw [← (backpropagate_fields player results a.nodes j).1]
      exact hcs
    have hcs3 : (a.resolve j).children = some cs := hcs2
    show c < (backpropagate a.nodes results player).length
    rw [backpropagate_length]
    exact hcr j hj2 cs hcs3 c hc
  · intro j hj cs hcs
    have hj2 : j < a.nodes.length := by
      rw [← backpropagate_length player results a.nodes]
      exact hj
    have hcs2 : ((a.nodes.getD j default)).children = some cs := by
      rw [← (backpropagate_fields player results a.nodes j).1]
      exact hcs
    have hcs3 : (a.resolve j).children = some cs := hcs2
    obtain ⟨hne', hv'⟩ := hci j hj2 cs hcs3
    refine ⟨hne', ?_⟩
    intro c hc
    have h1 : 1 ≤ ((a.nodes.getD c default)).visits := hv' c hc
    have h3 := backpropagate_visits_mono player results a.nodes c
    show 1 ≤ ((backpropagate a.nodes results player).getD c default).visits
    linarith
  · intro j hj
    have hj2 : j < a.nodes.length := by
      rw [← backpropagate_length player results a.nodes]
      exact hj
    show ((backpropagate a.nodes results player).getD j default).board.wf = true
    rw [(backpropagate_fields player results a.nodes j).2.2]
    exact hbw j hj2

/-- Expansion of a live leaf followed by backpropagation of one terminal
result per new child restores the visit invariant: the new children list is
nonempty, every new child has been visited, old children lists are untouched
and remain visited, and every stored board stays well formed. -/
lemma expand_backprop_inv (a : MCTSArena) (e : Nat) (player : Player)
    (results2 : List (Nat × GameState)) (cs0 : List Nat)
    (hcr : ChildrenInRange a) (hci : ChildInv a) (hbw : BoardsWF a)
    (helt : e < a.nodes.length) (hego : ((a.resolve e).board).game_over = false)
    (hcs0 : ((a.expand e).resolve e).children = some cs0)
    (hsim : ∀ c, c ∈ cs0 → ∃ g, (c, g) ∈ results2 ∧ g ≠ GameState.InProgress) :
    ChildrenInRange ⟨backpropagate (a.expand e).nodes results2 player⟩ ∧
    ChildInv ⟨backpropagate (a.expand e).nodes results2 player⟩ ∧
    BoardsWF ⟨backpropagate (a.expand e).nodes results2 player⟩ ∧
    a.nodes.length ≤ (backpropagate (a.expand e).nodes results2 player).length := by
  obtain ⟨hlen2, hold, hbE, hvE, hpE, cs1, hcs1, hcmem, hcne, hcov⟩ := expand_spec a e helt
  have hcs01 : cs0 = cs1 := by
    rw [hcs0] at hcs1
    exact Option.some.inj hcs1
  subst hcs01
  have hcsne : cs0 ≠ [] := by
    obtain ⟨kk, hkk, hkkbit⟩ := moves_nonzero (a.resolve e).board (hbw e helt) hego
    exact hcne ⟨kk, hkk, hkkbit⟩
  have hch2 : ∀ j, a.nodes.length ≤ j → j < (a.expand e).nodes.length →
      ((a.expand e).resolve j).children = none := by
    intro j h1 h2
    obtain ⟨_, i, _, _, hnode⟩ := hcov j h1 h2
    rw [hnode]
    rfl
  have hv2 : ∀ c, c < a.nodes.length →
      ((a.expand e).resolve c).visits = (a.resolve c).visits := by
    intro c hc
    by_cases hce : c = e
    · subst hce
      exact hvE
    · rw [hold c hc hce]
  refine ⟨?_, ?_, ?_, ?_⟩
  · intro j hj cs hcs c hc
    have hj2 : j < (a.expand e).nodes.length := by
      rw [← backpropagate_length player results2 (a.expand e).nodes]
      exact hj
    have hcs2 : (((a.expand e).nodes.getD j default)).children = some cs := by
      rw [← (backpropagate_fields player results2 (a.expand e).nodes j).1]
      exact hcs
    have hcs3 : ((a.expand e).resolve j).children = some cs := hcs2
    show c < (backpropagate (a.expand e).nodes results2 player).length
    rw [backpropagate_length]
    by_cases hje : j = e
    · subst hje
      rw [hcs1] at hcs3
      obtain rfl : cs0 = cs := Option.some.inj hcs3
      exact (hcmem c hc).2.1
    · by_cases hja : j < a.nodes.length
      · rw [hold j hja hje] at hcs3
        exact lt_of_lt_of_le (hcr j hja cs hcs3 c hc) hlen2
      · rw [hch2 j (by omega) hj2] at hcs3
        cases hcs3
  · intro j hj cs hcs
    have hj2 : j < (a.expand e).nodes.length := by
      rw [← backpropagate_length player results2 (a.expand e).nodes]
      exact hj
    have hcs2 : (((a.expand e).nodes.getD j default)).children = some cs := by
      rw [← (backpropagate_fields player results2 (a.expand e).nodes j).1]
      exact hcs
    have hcs3 : ((a.expand e).resolve j).children = some cs := hcs2
    by_cases hje : j = e
    · rw [hje] at hcs3
      rw [hcs1] at hcs3
      obtain rfl : cs0 = cs := Option.some.inj hcs3
      refine ⟨hcsne, ?_⟩
      intro c hc
      obtain ⟨halec, hcltA2, i2, hi2, hbit2, hnode2⟩ := hcmem c hc
      obtain ⟨g, hgmem, hgne⟩ := hsim c hc
      have hstart := backpropagate_start player results2 (a.expand e).nodes c g
        hgmem hgne hcltA2
      have hv0 : (((a.expand e).nodes.getD c default)).visits = 0 := by
        have hv0' : ((a.expand e).resolve c).visits = 0 := by
          rw [hnode2]
          rfl
        exact hv0'
      rw [hv0] at hstart
      show 1 ≤ ((backpropagate (a.expand e).nodes results2 player).getD c default).visits
      linarith
    · by_cases hja : j < a.nodes.length
      · rw [hold j hja hje] at hcs3
        obtain ⟨hne', hv'⟩ := hci j hja cs hcs3
        refine ⟨hne', ?_⟩
        intro c hc
        have hclt : c < a.nodes.length := hcr j hja cs hcs3 c hc
        have h1 := hv' c hc
        have h3 := backpropagate_visits_mono player results2 (a.expand e).nodes c
        have h2 : (((a.expand e).nodes.getD c default)).visits = (a.resolve c).visits :=
          hv2 c hclt
        rw [h2] at h3
        show 1 ≤ ((backpropagate (a.expand e).nodes results2 player).getD c default).visits
        linarith
      · rw [hch2 j (by omega) hj2] at hcs3
        cases hcs3
  · intro j hj
    have hj2 : j < (a.expand e).nodes.length := by
      rw [← backpropagate_length player results2 (a.expand e).nodes]
      exact hj
    show ((backpropagate (a.expand e).nodes results2 player).getD j default).board.wf = true
    rw [(backpropagate_fields player results2 (a.expand e).nodes j).2.2]
    by_cases hje : j = e
    · rw [hje]
      have hb : (((a.expand e).nodes.getD e default)).board = (a.resolve e).board := hbE
      rw [hb]
      exact hbw e helt
    · by_cases hja : j < a.nodes.length
      · have hb : (((a.expand e).nodes.getD j default)).board = (a.resolve j).board :=
          congrArg MCTSNode.board (hold j hja hje)
        rw [hb]
        exact hbw j hja
      · obtain ⟨_, i, hi81, hbit, hnode⟩ := hcov j (by omega) hj2
        have hb : (((a.expand e).nodes.getD j default)).board =
            (mkChild (a.resolve e).board e i).board := congrArg MCTSNode.board hnode
        rw [hb]
        exact wf_play (a.resolve e).board i (hbw e helt) hi81
  · rw [backpropagate_length]
    exact hlen2

/-- Every completed analyze iteration preserves the visit invariant together
with the structural facts its proof needs: in-range children lists, well
formed boards, and the analyzed id staying in range. -/
lemma analyzeLoop_inv (score : MCTSNode → MCTSNode → ℚ) (oracle : Nat → Nat → Nat)
    (id : Nat) :
    ∀ n a results calls out,
      analyzeLoop score oracle id a results calls n = some out →
      ChildrenInRange a → ChildInv a → BoardsWF a → id < a.nodes.length →
      ChildrenInRange out.1 ∧ ChildInv out.1 ∧ BoardsWF out.1 ∧
        id < out.1.nodes.length := by
  intro n
  induction n with
  | zero =>
    intro a results calls out h hcr hci hbw hid
    cases h
    exact ⟨hcr, hci, hbw, hid⟩
  | succ n IH =>
    intro a results calls out h hcr hci hbw hid
    rw [analyzeLoop_succ] at h
    rcases hsel : a.select score id with _ | be
    · rw [hsel] at h
      have h4 : (none : Option (MCTSArena × List (Nat × GameState) × Nat)) = some out := h
      cases h4
    · rcases be with e | t
      · rw [hsel] at h
        obtain ⟨helt, hech, hego⟩ :=
          (selectLoop_spec a score hcr (by omega) (a.nodes.length + 1) id hid).1 e hsel
        have h3 : (match collectSims oracle (a.expand e)
              (((a.expand e).resolve e).children.getD []) calls with
            | none => none
            | some (results2, calls2) =>
              analyzeLoop score oracle id
                ⟨backpropagate (a.expand e).nodes results2
                  (((a.expand e).resolve id).board.next_player)⟩
                results2 calls2 n) = some out := h
        rcases hcol : collectSims oracle (a.expand e)
            (((a.expand e).resolve e).children.getD []) calls with _ | pr
        · have h4 : (none : Option (MCTSArena × List (Nat × GameState) × Nat)) = some out := by
            rw [hcol] at h3
            exact h3
          cases h4
        · rcases pr with ⟨results2, calls2⟩
          have h2 : analyzeLoop score oracle id
              ⟨backpropagate (a.expand e).nodes results2
                (((a.expand e).resolve id).board.next_player)⟩
              results2 calls2 n = some out := by
            rw [hcol] at h3
            exact h3
          obtain ⟨hlen2, hold, hbE, hvE, hpE, cs1, hcs1, hcmem, hcne, hcov⟩ :=
            expand_spec a e helt
          have hgetd : ((a.expand e).resolve e).children.getD [] = cs1 := by
            rw [hcs1]
            rfl
          rw [hgetd] at hcol
          have hmem := collectSims_mem oracle (a.expand e) cs1 calls results2 calls2 hcol
          obtain ⟨hcr3, hci3, hbw3, hlen3⟩ := expand_backprop_inv a e
            (((a.expand e).resolve id).board.next_player) results2 cs1
            hcr hci hbw helt hego hcs1 hmem
          refine IH _ results2 calls2 out h2 hcr3 hci3 hbw3 ?_
          show id < (backpropagate (a.expand e).nodes results2
            (((a.expand e).resolve id).board.next_player)).length
          omega
      · rw [hsel] at h
        have h2 : analyzeLoop score oracle id
            ⟨backpropagate a.nodes (results ++ [(t, (a.resolve t).board.check_game_state)])
              ((a.resolve id).board.next_player)⟩
            (results ++ [(t, (a.resolve t).board.check_game_state)]) calls n = some out := h
        obtain ⟨hcr3, hci3, hbw3, hlen3⟩ := backprop_inv a
          (results ++ [(t, (a.resolve t).board.check_game_state)])
          ((a.resolve id).board.next_player) hcr hci hbw
        refine IH _ _ calls out h2 hcr3 hci3 hbw3 ?_
        show id < (backpropagate a.nodes
          (results ++ [(t, (a.resolve t).board.check_game_state)])
          ((a.resolve id).board.next_player)).length
        omega

/-! ### Claim C7 -/

/-- C7: every child of an expanded node receives an initial visit in the same
iteration that created it (fan-out simulation over all new siblings followed
by backpropagation), so when analyze starts from an arena satisfying the
visit invariant, after the iteration budget every node whose children list is
present has all children with visits at least 1, and select_best_child on any
such node returns a child with visits strictly above 0. -/
theorem analyze_visit_invariant (a : MCTSArena) (score : MCTSNode → MCTSNode → ℚ)
    (oracle : Nat → Nat → Nat) (id n_iters : Nat) (out : MCTSArena × ℚ × Nat)
    (hcr : ChildrenInRange a) (hci : ChildInv a) (hbw : BoardsWF a)
    (hid : id < a.nodes.length)
    (hrun : a.analyze score oracle id n_iters = some out) :
    ChildInv out.1 ∧
    (∀ j cs, j < out.1.nodes.length → (out.1.resolve j).children = some cs →
      ∃ r, out.1.select_best_child j = some r ∧ 0 < (out.1.resolve r).visits) := by
  rw [MCTSArena.analyze] at hrun
  rcases hal : analyzeLoop score oracle id a [] 0 n_iters with _ | pr3
  · rw [hal] at hrun
    cases hrun
  · rw [hal] at hrun
    obtain ⟨hcr2, hci2, hbw2, hid2⟩ := analyzeLoop_inv score oracle id n_iters a [] 0 pr3
      hal hcr hci hbw hid
    rcases pr3 with ⟨a2, r2, c2⟩
    have hci2' : ChildInv a2 := hci2
    have h2 : (match a2.select_best_child id with
        | none => none
        | some best =>
          some (a2, (a2.resolve best).wins / (a2.resolve best).visits * 100, best)) =
        some out := hrun
    rcases hsb : a2.select_best_child id with _ | bc
    · have h4 : (none : Option (MCTSArena × ℚ × Nat)) = some out := by
        rw [hsb] at h2
        exact h2
      cases h4
    · have h5 : some (a2, (a2.resolve bc).wins / (a2.resolve bc).visits * 100, bc) =
          some out := by
        rw [hsb] at h2
        exact h2
      obtain rfl : (a2, (a2.resolve bc).wins / (a2.resolve bc).visits * 100, bc) = out :=
        Option.some.inj h5
      refine ⟨hci2', ?_⟩
      intro j cs hj hcs
      obtain ⟨hne', hv'⟩ := hci2' j hj cs hcs
      obtain ⟨r, hr1, hr2, hr3⟩ := select_best_child_pos a2 j cs hcs hne' hv'
      exact ⟨r, hr1, hr3⟩

/-- Two-node arena satisfying the visit invariant: a visited root with one
visited child. -/
def w7Arena : MCTSArena :=
  ⟨[{ board := Board.initial, wins := 0, visits := 1, parent := none, children := some [1] },
    { board := Board.initial, wins := 0, visits := 1, parent := some 0, children := none }]⟩

set_option maxRecDepth 200000 in
/-- Witness: the invariant theorem applied to a concrete analyze run. -/
theorem analyze_visit_invariant_witness :
    ∃ out, w7Arena.analyze (fun _ _ => 0) (fun _ _ => 0) 0 0 = some out ∧
      ChildInv out.1 ∧
      (∀ j cs, j < out.1.nodes.length → (out.1.resolve j).children = some cs →
        ∃ r, out.1.select_best_child j = some r ∧ 0 < (out.1.resolve r).visits) := by
  have hrun : w7Arena.analyze (fun _ _ => 0) (fun _ _ => 0) 0 0 =
      some (w7Arena, (w7Arena.resolve 1).wins / (w7Arena.resolve 1).visits * 100, 1) := rfl
  have hcr : ChildrenInRange w7Arena := by
    intro i hi cs hcs c hc
    have hi2 : i < 2 := hi
    interval_cases i
    · have h3 : some [1] = some cs := hcs
      obtain rfl : [1] = cs := Option.some.inj h3
      have h4 : c = 1 := by simpa using hc
      subst h4
      exact Nat.one_lt_two
    · exact Option.noConfusion (show (none : Option (List Nat)) = some cs from hcs)
  have hci : ChildInv w7Arena := by
    intro i hi cs hcs
    have hi2 : i < 2 := hi
    interval_cases i
    · have h3 : some [1] = some cs := hcs
      obtain rfl : [1] = cs := Option.some.inj h3
      refine ⟨List.cons_ne_nil 1 [], ?_⟩
      intro c hc
      have h4 : c = 1 := by simpa using hc
      subst h4
      exact le_refl 1
    · exact Option.noConfusion (show (none : Option (List Nat)) = some cs from hcs)
  have hbw : BoardsWF w7Arena := by
    have hinit : Board.initial.wf = true := by decide
    intro i hi
    have hi2 : i < 2 := hi
    interval_cases i
    · exact hinit
    · exact hinit
  have hid : 0 < w7Arena.nodes.length := Nat.succ_pos 1
  obtain ⟨h1, h2⟩ := analyze_visit_invariant w7Arena (fun _ _ => 0) (fun _ _ => 0) 0 0
    (w7Arena, (w7Arena.resolve 1).wins / (w7Arena.resolve 1).visits * 100, 1)
    hcr hci hbw hid hrun
  exact ⟨_, hrun, h1, h2⟩

/-- One real analyze iteration from nearEndBoard: the root is expanded into
its single child, the child is simulated (a draw) and backpropagated. -/
def cexRun : Option (MCTSArena × List (Nat × GameState) × Nat) :=
  analyzeLoop (fun _ _ => 0) (fun _ _ => 0) 0 (MCTSArena.fromBoard nearEndBoard) [] 0 1

/-- Arena after that completed iteration. -/
def cexArena : MCTSArena :=
  match cexRun with
  | some pr => pr.1
  | none => MCTSArena.fromBoard nearEndBoard

set_option maxRecDepth 1000000 in
/-- C7 counterexample: after one completed analyze iteration node 1 has been
visited (visits = 1), yet select_best_child on it hits the expect panic
(modelled as none) because its children list is absent, so select_best_child
on a node visited at least once does not always return a child with positive
visits as the claim states. -/
theorem analyze_visited_leaf_selection_panics :
    cexRun.isSome = true ∧
    1 ≤ (cexArena.resolve 1).visits ∧
    (cexArena.resolve 1).children = none ∧
    cexArena.select_best_child 1 = none := by
  refine ⟨rfl, ?_, rfl, rfl⟩
  have h : (cexArena.resolve 1).visits = 0 + 1 := rfl
  rw [h]
  norm_num

end Stoctopus
